import Mathlib

set_option autoImplicit false

/-!
Shallow embedding of the VBridge core (entity-graph path resolution,
cutoff-time propagation, record windowing, feature merging/pruning and the
counterfactual what-if engine), translated from
`vbridge/utils/entityset_helpers.py`, `vbridge/featurization/feature.py`
and `vbridge/router/resources/feature_explanation.py`.

Conventions: instance ids, key values and timestamps are `Int`; feature
values in the explanation engine are `ℚ` (statistics are exact rationals,
the standard deviation lives in `ℝ` through `Real.sqrt`).  Python
exceptions are modelled with `Option` / `Except String`.  Pandas frames are
modelled positionally; the embedding matches pandas on frames whose index
labels are unique, which is the regime the code operates in.
-/

namespace VBridge

instance : DecidableEq (Except String (List (Int × Int))) := fun a b =>
  match a, b with
  | Except.error x, Except.error y =>
      decidable_of_iff (x = y) (by constructor <;> intro h <;> simp_all)
  | Except.ok x, Except.ok y =>
      decidable_of_iff (x = y) (by constructor <;> intro h <;> simp_all)
  | Except.error _, Except.ok _ => isFalse (by intro h; cases h)
  | Except.ok _, Except.error _ => isFalse (by intro h; cases h)

/-! ## Entity graph (featuretools `EntitySet` as used by the helpers) -/

/-- A featuretools relationship: each child row references one parent row via
equal key values (`parse_relationship_path` fields). -/
structure Rel where
  parent : String
  parentCol : String
  child : String
  childCol : String
deriving DecidableEq

/-- One entity dataframe: its name, its index labels (`df.index`) and its
columns (name, values aligned with the index). -/
structure EDF where
  name : String
  index : List Int
  cols : List (String × List Int)
deriving DecidableEq

/-- An entity set: dataframes plus the relationship list (in insertion
order, which is the order featuretools iterates them). -/
structure EntitySet where
  dfs : List EDF
  rels : List Rel
deriving DecidableEq

/-- `entityset[name]` — `none` models the `KeyError` on an unknown name. -/
def EntitySet.getDF (es : EntitySet) (n : String) : Option EDF :=
  es.dfs.find? (fun d => d.name == n)

/-- `df[col].values` — `none` models the `KeyError` on a missing column. -/
def EDF.colV (e : EDF) (c : String) : Option (List Int) :=
  (e.cols.find? (fun p => p.1 == c)).map (fun p => p.2)

/-- `entityset.get_backward_dataframes(n)`: children of `n`, in relationship
insertion order. -/
def backwardNodes (es : EntitySet) (n : String) : List String :=
  (es.rels.filter (fun r => r.parent == n)).map (fun r => r.child)

/-- `entityset.get_forward_dataframes(n)`: parents of `n`, in relationship
insertion order. -/
def forwardNodes (es : EntitySet) (n : String) : List String :=
  (es.rels.filter (fun r => r.child == n)).map (fun r => r.parent)

/-- `child_nodes = backward_nodes + forward_nodes` in `find_path`. -/
def childNodes (es : EntitySet) (n : String) : List String :=
  backwardNodes es n ++ forwardNodes es n

/-- The `parent_dict` of `find_path`: insertion-ordered association list;
the value is the BFS/DFS parent (`none` for the start node). -/
abbrev PDict := List (String × Option String)

def pdLookup (pd : PDict) (k : String) : Option (Option String) :=
  (pd.find? (fun p => p.1 == k)).map (fun p => p.2)

/-- The inner `for child in child_nodes` loop: unseen children are recorded
with parent `pn` and appended to the pipe. -/
def visitChildren (pd : PDict) (pipe : List String) (pn : String) :
    List String → PDict × List String
  | [] => (pd, pipe)
  | c :: cs =>
      if (pdLookup pd c).isSome then visitChildren pd pipe pn cs
      else visitChildren (pd ++ [(c, some pn)]) (pipe ++ [c]) pn cs

/-- The `while len(nodes_pipe)` loop of `find_path`.  `nodes_pipe.pop()`
removes the **last** element (a stack), so the traversal is depth-first.
Fuel bounds the iterations; `2 + 2 * es.rels.length` pops suffice because
every push corresponds to a fresh `parent_dict` key. -/
def findPathLoop (es : EntitySet) (source : String) :
    Nat → List String → PDict → PDict
  | 0, _, pd => pd
  | fuel + 1, pipe, pd =>
      match pipe.getLast? with
      | none => pd
      | some pn =>
          let pipe1 := pipe.dropLast
          if pn = source then pd
          else
            let st := visitChildren pd pipe1 pn (childNodes es pn)
            findPathLoop es source fuel st.2 st.1

/-- Path reconstruction: walk `parent_dict` pointers from `node` until
`target`, appending the grown path each step (`paths.append(paths[-1]+[node])`).
`none` models the `KeyError` when a node was never discovered. -/
def buildPaths (pd : PDict) (target : String) :
    Nat → String → List (List String) → Option (List (List String))
  | 0, _, _ => none
  | fuel + 1, node, paths =>
      if node = target then some paths
      else
        match pdLookup pd node with
        | none => none
        | some none => none
        | some (some p) =>
            buildPaths pd target fuel p (paths ++ [(paths.getLast?.getD []) ++ [p]])

/-- `find_path(entityset, source_entity, target_entity)`: returns the list of
growing paths; the caller uses `[-1]`.  `none` models an uncaught exception
(source never discovered: disconnected or unknown entity). -/
def find_path (es : EntitySet) (source target : String) :
    Option (List (List String)) :=
  let pd := findPathLoop es source (2 + 2 * es.rels.length) [target] [(target, none)]
  buildPaths pd target (pd.length + 1) source [[source]]

/-- The last path of `find_path`, i.e. `find_path(...)[-1]`. -/
def findPathLast (es : EntitySet) (source target : String) : Option (List String) :=
  (find_path es source target).map (fun ps => ps.getLast?.getD [])

/-- Undirected adjacency induced by the relationship list. -/
def adjB (es : EntitySet) (a b : String) : Bool :=
  es.rels.any (fun r => (r.parent == a && r.child == b) || (r.parent == b && r.child == a))

/-- `p` is a chain of adjacent entities (used to state path validity). -/
def chainB (es : EntitySet) : List String → Bool
  | [] => true
  | [_] => true
  | a :: b :: rest => adjB es a b && chainB es (b :: rest)

/-- Reachability over the undirected relationship graph. -/
def Reach (es : EntitySet) (a b : String) : Prop :=
  Relation.ReflTransGen (fun x y => adjB es x y = true) a b

/-! ## Cutoff-time propagation (`transfer_cutoff_times`) -/

/-- Cutoff-time rows: `(index label, time)` — the per-instance mapping with
its companion `time` column. -/
abbrev CTRows := List (Int × Int)

/-- `cutoff_times.loc[k].time` for a unique-label frame: first row with
label `k`. -/
def ctLookup (rows : CTRows) (k : Int) : Option Int :=
  (rows.find? (fun p => p.1 == k)).map (fun p => p.2)

/-- Lookup of a child-entity row by index label, returning its child-key
column value; models pandas alignment of `child_df[child_col]` onto another
index (missing label = NaN = `none`). -/
def lkIdx (index ks : List Int) (i : Int) : Option Int :=
  ((index.zip ks).find? (fun q => q.1 == i)).map (fun q => q.2)

/-- `cutoff_times[r.child_column] = entityset[child][r.child_column]`:
the child-key column aligned onto the cutoff frame's index. -/
def alignChildCol (index ks : List Int) (rows : CTRows) : List (Option Int) :=
  rows.map (fun p => lkIdx index ks p.1)

/-- All lookups of `loc[child_df_index]`; `none` as soon as one label is
missing (the `KeyError`). -/
def lookupAll (rows : CTRows) : List Int → Option (List Int)
  | [] => some []
  | k :: ks =>
      match ctLookup rows k, lookupAll rows ks with
      | some t, some ts => some (t :: ts)
      | _, _ => none

/-- Parent→child hop (`cutoff_times.loc[child_df_index]` then re-indexing by
the child's index): every child row inherits the time of its parent key;
a missing parent label raises `KeyError`. -/
def parentToChildKs (index ks : List Int) (rows : CTRows) : Except String CTRows :=
  match lookupAll rows ks with
  | none => Except.error "KeyError"
  | some ts => Except.ok (index.zip ts)

/-- Insertion sort, ascending (pandas `groupby` sorts group keys). -/
def insSorted (x : Int) : List Int → List Int
  | [] => [x]
  | y :: ys => if x ≤ y then x :: y :: ys else y :: insSorted x ys

def sortInts : List Int → List Int
  | [] => []
  | x :: xs => insSorted x (sortInts xs)

/-- Cutoff rows with the aligned child-key (rows whose key is `none` are
dropped by `groupby`, like NaN group labels). -/
def alignedPairs (index ks : List Int) (rows : CTRows) : List ((Int × Int) × Option Int) :=
  rows.map (fun p => (p, lkIdx index ks p.1))

/-- The cutoff times of the group with key `k`. -/
def groupTimes (prs : List ((Int × Int) × Option Int)) (k : Int) : List Int :=
  prs.filterMap (fun q => if q.2 == some k then some q.1.2 else none)

def maxTimeOf (ts : List Int) : Option Int :=
  ts.foldl (fun acc t => match acc with
    | none => some t
    | some m => some (max m t)) none

def minTimeOf (ts : List Int) : Option Int :=
  ts.foldl (fun acc t => match acc with
    | none => some t
    | some m => some (min m t)) none

/-- Child→parent hop: `groupby(child_col).time.idxmax` (resp. `idxmin`) picks,
per group key, the row holding the extreme time (whose time *is* the group
max/min), then `loc[idx].set_index(child_col)` re-indexes by the group keys
(pandas emits them sorted ascending). -/
def childToParentKs (index ks : List Int) (rows : CTRows) (isLatest : Bool) : CTRows :=
  let prs := alignedPairs index ks rows
  let keys := sortInts (prs.filterMap (fun q => q.2)).dedup
  keys.filterMap (fun k =>
    ((if isLatest then maxTimeOf else minTimeOf) (groupTimes prs k)).map (fun t => (k, t)))

/-- `options[0]` of the relationship filter between two consecutive path
entities (either direction); `none` raises the "No Relationship" error. -/
def relBetween (es : EntitySet) (s t : String) : Option Rel :=
  es.rels.find? (fun r =>
    (r.child == s && r.parent == t) || (r.parent == s && r.child == t))

/-- One loop iteration of `transfer_cutoff_times` for the hop `s → t`.
Returns the hop result and the in-place column assignments performed on the
*current* frame object (the child→parent branch executes
`cutoff_times[r.child_column] = ...` before rebinding, mutating it). -/
def hopFull (es : EntitySet) (reduce : String) (rows : CTRows) (s t : String) :
    Except String CTRows × List (String × List (Option Int)) :=
  match relBetween es s t with
  | none => (Except.error ("No Relationship between " ++ s ++ " and " ++ t), [])
  | some r =>
      if t = r.child then
        match es.getDF r.child with
        | none => (Except.error "KeyError", [])
        | some child =>
            match child.colV r.childCol with
            | none => (Except.error "KeyError", [])
            | some ks => (parentToChildKs child.index ks rows, [])
      else if s = r.child then
        match es.getDF r.child with
        | none => (Except.error "KeyError", [])
        | some child =>
            match child.colV r.childCol with
            | none => (Except.error "KeyError", [])
            | some ks =>
                let muts := [(r.childCol, alignChildCol child.index ks rows)]
                if reduce = "latest" then
                  (Except.ok (childToParentKs child.index ks rows true), muts)
                else if reduce = "earist" then
                  (Except.ok (childToParentKs child.index ks rows false), muts)
                else (Except.error "Unknown reduce option.", muts)
      else (Except.ok rows, [])

/-- The remaining hops after the first (each operates on a frame freshly
created by the previous hop, so their in-place writes never reach the
caller). -/
def transferLoop (es : EntitySet) (reduce : String) :
    List (String × String) → CTRows → Except String CTRows
  | [], rows => Except.ok rows
  | (s, t) :: rest, rows =>
      match (hopFull es reduce rows s t).1 with
      | Except.error e => Except.error e
      | Except.ok rows1 => transferLoop es reduce rest rows1

/-- The caller-visible state of the cutoff-time frame after the call: its
rows plus any columns added in place. -/
structure CTFrame where
  rows : CTRows
  extra : List (String × List (Option Int))
deriving DecidableEq

/-- `transfer_cutoff_times(entityset, cutoff_times, source, target, reduce)`.
First component: the returned mapping (or the raised error).  Second
component: the caller's frame after the call — only the *first* hop can
mutate it, because every later hop works on a rebound fresh frame. -/
def transferFull (es : EntitySet) (ct : CTRows) (source target reduce : String) :
    Except String CTRows × CTFrame :=
  match findPathLast es source target with
  | none => (Except.error "KeyError", CTFrame.mk ct [])
  | some path =>
      match path.zip path.tail with
      | [] => (Except.ok ct, CTFrame.mk ct [])
      | (s, t) :: rest =>
          let h := hopFull es reduce ct s t
          let res := match h.1 with
            | Except.error e => Except.error e
            | Except.ok rows1 => transferLoop es reduce rest rows1
          (res, CTFrame.mk ct h.2)

def transfer_cutoff_times (es : EntitySet) (ct : CTRows) (source target : String)
    (reduce : String) : Except String CTRows :=
  (transferFull es ct source target reduce).1

/-! ## Record windowing (`get_records`) -/

/-- Position of the first element satisfying `p`. -/
def idxOf? {α : Type} (p : α → Bool) : List α → Option Nat
  | [] => none
  | x :: xs => if p x then some 0 else (idxOf? p xs).map (fun i => i + 1)

/-- A generic dataframe: column names plus row-major values. -/
structure Table where
  colNames : List String
  rows : List (List Int)
deriving DecidableEq

/-- The value of column `c` in row `r` (`none` = missing column / cell). -/
def Table.cell (T : Table) (r : List Int) (c : String) : Option Int :=
  (idxOf? (fun n => n == c) T.colNames).bind (fun i => r.get? i)

/-- `entity_df[time_index] <= cutoff_time` on one row; a missing value
compares false (NaN semantics). -/
def timeLeB (o : Option Int) (c : Int) : Bool :=
  match o with
  | some v => v ≤ c
  | none => false

/-- `get_records(entityset, subject_id, entity_id, time_index, cutoff_time)`:
filter by `SUBJECT_ID` when that column exists, then keep rows whose
time-index value is `<=` the cutoff time when both arguments are given. -/
def get_records (T : Table) (subject_id : Int) (ti : Option String)
    (ct : Option Int) : Table :=
  let T1 :=
    if "SUBJECT_ID" ∈ T.colNames then
      Table.mk T.colNames
        (T.rows.filter (fun r => T.cell r "SUBJECT_ID" == some subject_id))
    else T
  match ct, ti with
  | some c, some tix =>
      Table.mk T1.colNames (T1.rows.filter (fun r => timeLeB (T1.cell r tix) c))
  | _, _ => T1

/-! ## Feature merging (`Featurization.merge_features`) -/

/-- A per-source feature table: target-entity index labels plus named
columns of feature values. -/
structure FTab where
  index : List Int
  cols : List (String × List Int)
deriving DecidableEq

def ftColNames (t : FTab) : List String := t.cols.map (fun p => p.1)

def ftGetCol (t : FTab) (n : String) : Option (List Int) :=
  (t.cols.find? (fun p => p.1 == n)).map (fun p => p.2)

/-- The merged matrix: values are optional because columns pulled from a
source with a differently-labelled index align with NaN holes. -/
structure MTab where
  index : List Int
  cols : List (String × List (Option Int))
deriving DecidableEq

def mtColNames (t : MTab) : List String := t.cols.map (fun p => p.1)

def mtGetCol (t : MTab) (n : String) : Option (List (Option Int)) :=
  (t.cols.find? (fun p => p.1 == n)).map (fun p => p.2)

/-- `pd.DataFrame(fm_list[0])`: the first table, columns taken verbatim. -/
def liftFT (t : FTab) : MTab :=
  MTab.mk t.index (t.cols.map (fun p => (p.1, p.2.map some)))

/-- `feature_matrix[col] = fm[col]`: the source column aligned onto the
accumulator's index (missing labels become NaN). -/
def alignCol (targetIdx : List Int) (src : FTab) (vals : List Int) : List (Option Int) :=
  targetIdx.map (fun i => lkIdx src.index vals i)

/-- One feature of the inner `for f in fl` loop: skip when the name is
already a column (first-seen wins), otherwise append the aligned column and
the descriptor.  `none` models the `KeyError` of `fm[col]`. -/
def addFeat (acc : MTab × List String) (src : FTab) (f : String) :
    Option (MTab × List String) :=
  if f ∈ mtColNames acc.1 then some acc
  else
    match ftGetCol src f with
    | none => none
    | some vals =>
        some (MTab.mk acc.1.index (acc.1.cols ++ [(f, alignCol acc.1.index src vals)]),
              acc.2 ++ [f])

def addFeats (acc : MTab × List String) (src : FTab) :
    List String → Option (MTab × List String)
  | [] => some acc
  | f :: fs =>
      match addFeat acc src f with
      | none => none
      | some acc1 => addFeats acc1 src fs

def mergeLoop (acc : MTab × List String) :
    List (FTab × List String) → Option (MTab × List String)
  | [] => some acc
  | (src, fl) :: rest =>
      match addFeats acc src fl with
      | none => none
      | some acc1 => mergeLoop acc1 rest

/-- `Featurization.merge_features(fm_list, fl_list)`.  The accumulator starts
from the whole first table; the loop re-walks `zip(fm_list, fl_list)` from
the beginning (the first table's own features are skipped as duplicates).
The trailing `feature_matrix.loc[index]` re-selects the unchanged index and
is the identity for unique labels, so it is omitted.  `none` models the
`IndexError` on an empty list. -/
def merge_features (fms : List FTab) (fls : List (List String)) :
    Option (MTab × List String) :=
  match fms, fls with
  | fm0 :: _, fl0 :: _ =>
      mergeLoop (liftFT fm0, fl0) (fms.zip fls)
  | _, _ => none

/-! ## Uninterpretable-feature removal
(`Featurization.remove_uninterpretable_features`) -/

/-- `needle in hay` for Python strings: substring containment. -/
def listHasSub (needle hay : List Char) : Bool :=
  (List.range (hay.length + 1)).any (fun i => needle.isPrefixOf (hay.drop i))

def strContains (hay needle : String) : Bool :=
  listHasSub needle.toList hay.toList

/-- `' WHERE ' in f`. -/
def whereB (f : String) : Bool := strContains f " WHERE "

/-- Characters before the first occurrence of `sep` (the whole list when
`sep` does not occur). -/
def takeUntilSub (sep : List Char) : List Char → List Char
  | [] => []
  | c :: cs => if sep.isPrefixOf (c :: cs) then [] else c :: takeUntilSub sep cs

/-- `f.split(' WHERE ')[0]`. -/
def whereBase (f : String) : String :=
  String.mk (takeUntilSub " WHERE ".toList f.toList)

/-- `where_prefix = set(f.split(' WHERE ')[0] for f in fm.columns if ' WHERE ' in f)`
(only `any`-membership is used downstream, so a list stands in for the set). -/
def whereBases (cols : List String) : List String :=
  (cols.filter whereB).map whereBase

/-- A column is collected as uninterpretable iff some WHERE-feature's
pre-`WHERE` part occurs as a **substring** of its name and the column itself
has no `WHERE`. -/
def uninterpretableCols (cols : List String) : List String :=
  cols.filter (fun c => (whereBases cols).any (fun p => strContains c p) && !(whereB c))

/-- `Featurization.remove_uninterpretable_features(fm, fl)`: pop each
collected column, then keep only descriptors whose name is a surviving
column. -/
def remove_uninterpretable_features (fm : FTab) (fl : List String) :
    FTab × List String :=
  let un := uninterpretableCols (ftColNames fm)
  let fm2 := FTab.mk fm.index (fm.cols.filter (fun p => !(un.contains p.1)))
  (fm2, fl.filter (fun f => (ftColNames fm2).contains f))

/-! ## Counterfactual what-if engine (`get_what_if_shap_values`) -/

/-- The feature matrix for the explanation engine: instance ids plus columns
`(name, is-numeric dtype, values)`.  Non-numeric columns carry stand-in
values: they are excluded from the statistics and never perturbed, so only
their presence matters. -/
structure FMat where
  ids : List Int
  cols : List (String × Bool × List ℚ)
deriving DecidableEq

def FMat.colNames (fm : FMat) : List String := fm.cols.map (fun p => p.1)

/-- `fm.select_dtypes(include=[np.number]).columns`. -/
def FMat.numericNames (fm : FMat) : List String :=
  (fm.cols.filter (fun p => p.2.1)).map (fun p => p.1)

def FMat.colData (fm : FMat) (c : String) : Option (Bool × List ℚ) :=
  (fm.cols.find? (fun p => p.1 == c)).map (fun p => p.2)

/-- `fm.loc[direct_id][c]` (first occurrence of the label). -/
def FMat.cell (fm : FMat) (id : Int) (c : String) : Option ℚ :=
  (fm.colData c).bind (fun d =>
    (idxOf? (fun i => i == id) fm.ids).bind (fun j => d.2.get? j))

/-- Column mean (`.agg('mean')`, no missing values in the model). -/
def colMean (vs : List ℚ) : ℚ := vs.sum / (vs.length : ℚ)

/-- Sample variance with `ddof=1`; `none` when the count is `<= 1`, where
pandas `std` is NaN ("undefined standard deviation"). -/
def colVarQ (vs : List ℚ) : Option ℚ :=
  if vs.length ≤ 1 then none
  else some ((vs.map (fun x => (x - colMean vs) ^ 2)).sum / ((vs.length : ℚ) - 1))

/-- `stat['std'] = fm[c].std()`. -/
noncomputable def colStd (vs : List ℚ) : Option ℝ :=
  (colVarQ vs).map (fun q => Real.sqrt (q : ℝ))

/-- `stat['high'] = mean + std * 1.96` for a numeric column; `none` when the
column is missing, non-numeric, or its std is NaN. -/
noncomputable def statHigh (fm : FMat) (c : String) : Option ℝ :=
  (fm.colData c).bind (fun d =>
    if d.1 then (colStd d.2).map (fun s => (colMean d.2 : ℝ) + 1.96 * s) else none)

/-- `stat['low'] = mean - std * 1.96`. -/
noncomputable def statLow (fm : FMat) (c : String) : Option ℝ :=
  (fm.colData c).bind (fun d =>
    if d.1 then (colStd d.2).map (fun s => (colMean d.2 : ℝ) - 1.96 * s) else none)

/-- `numeric_target_fv[c] > stat.loc[c]['high']` (NaN compares false). -/
def ExceedsHigh (fm : FMat) (id : Int) (c : String) : Prop :=
  ∃ v h, FMat.cell fm id c = some v ∧ statHigh fm c = some h ∧ (v : ℝ) > h

/-- `numeric_target_fv[c] < stat.loc[c]['low']`. -/
def BelowLow (fm : FMat) (id : Int) (c : String) : Prop :=
  ∃ v l, FMat.cell fm id c = some v ∧ statLow fm c = some l ∧ (v : ℝ) < l

/-- `high_features`: the numeric features of the target row strictly above
their high boundary (in column order). -/
noncomputable def highFeatures (fm : FMat) (id : Int) : List String :=
  fm.numericNames.filter (fun c => @decide (ExceedsHigh fm id c) (Classical.propDecidable _))

/-- `low_features`. -/
noncomputable def lowFeatures (fm : FMat) (id : Int) : List String :=
  fm.numericNames.filter (fun c => @decide (BelowLow fm id c) (Classical.propDecidable _))

/-- `target_fv.values`: the target row over **all** columns, in column
order. -/
def targetRow (fm : FMat) (id : Int) : List ℚ :=
  fm.cols.map (fun p =>
    ((idxOf? (fun i => i == id) fm.ids).bind (fun j => p.2.2.get? j)).getD 0)

/-- Position of a feature among the row labels `fm.columns`. -/
def rowPosOf (fm : FMat) (c : String) : Option Nat :=
  idxOf? (fun n => n == c) fm.colNames

/-- One column of `high_fm` transposed, i.e. one perturbed copy of the
instance: `target_fv` with the single cell `high_fm.loc[f, f]` overwritten
by the high boundary (the fallback branches are unreachable for
`f ∈ high_features`). -/
noncomputable def perturbedValsHigh (fm : FMat) (id : Int) (f : String) : List ℝ :=
  match rowPosOf fm f, statHigh fm f with
  | some i, some h => ((targetRow fm id).map (fun q : ℚ => (q : ℝ))).set i h
  | _, _ => (targetRow fm id).map (fun q : ℚ => (q : ℝ))

/-- One perturbed copy for a below-low feature. -/
noncomputable def perturbedValsLow (fm : FMat) (id : Int) (f : String) : List ℝ :=
  match rowPosOf fm f, statLow fm f with
  | some i, some l => ((targetRow fm id).map (fun q : ℚ => (q : ℝ))).set i l
  | _, _ => (targetRow fm id).map (fun q : ℚ => (q : ℝ))

/-- The value a perturbed row holds for feature `g`. -/
def valAt (fm : FMat) (vals : List ℝ) (g : String) : Option ℝ :=
  (rowPosOf fm g).bind (fun i => vals.get? i)

/-- `get_what_if_shap_values` for one prediction target: an entry per
out-of-range numeric feature, carrying that feature's own attribution on its
perturbed copy (`explanations.loc[i, feature]`) and the perturbed copy's
prediction (`predictions[i]`); `eF`/`pF` are the external attribution and
prediction collaborators.  An unknown `direct_id` raises inside the guarded
block and yields the empty mapping. -/
noncomputable def whatIfOutput (eF : List ℝ → String → ℝ) (pF : List ℝ → ℝ)
    (fm : FMat) (id : Int) : List (String × ℝ × ℝ) :=
  if id ∈ fm.ids then
    (highFeatures fm id).map (fun f =>
      (f, eF (perturbedValsHigh fm id f) f, pF (perturbedValsHigh fm id f)))
    ++ (lowFeatures fm id).map (fun f =>
      (f, eF (perturbedValsLow fm id f) f, pF (perturbedValsLow fm id f)))
  else []

/-- The key set of the what-if output mapping. -/
noncomputable def whatIfKeys (eF : List ℝ → String → ℝ) (pF : List ℝ → ℝ)
    (fm : FMat) (id : Int) : List String :=
  (whatIfOutput eF pF fm id).map (fun e => e.1)

/-! ## Concrete fixtures for witnesses and counterexamples -/

/-- Entity graph `T—A, T—B, B—C, C—S, A—S` (relationships in this insertion
order).  The stack-based search from `T` pops `B` before `A` and therefore
discovers `S` through `C`. -/
def esDfs : EntitySet :=
  EntitySet.mk
    [EDF.mk "T" [] [], EDF.mk "A" [] [], EDF.mk "B" [] [],
     EDF.mk "C" [] [], EDF.mk "S" [] []]
    [Rel.mk "T" "id" "A" "tid", Rel.mk "T" "id" "B" "tid",
     Rel.mk "B" "id" "C" "bid", Rel.mk "C" "id" "S" "cid",
     Rel.mk "A" "id" "S" "aid"]

/-- Parent `P` (one row, id 1) with child `A` (rows 10 and 11, both keyed to
parent 1). -/
def esPA : EntitySet :=
  EntitySet.mk
    [EDF.mk "P" [1] [("id", [1])],
     EDF.mk "A" [10, 11] [("pid", [1, 1])]]
    [Rel.mk "P" "id" "A" "pid"]

/-- Child cutoff times 10:00 and 14:00 (in minutes). -/
def ctChildren : CTRows := [(10, 600), (11, 840)]

/-- Parent `P` (one row) with child `A` whose second row references parent 2,
which has no cutoff time. -/
def esPAgap : EntitySet :=
  EntitySet.mk
    [EDF.mk "P" [1] [("id", [1])],
     EDF.mk "A" [10, 11] [("pid", [1, 2])]]
    [Rel.mk "P" "id" "A" "pid"]

/-- A cutoff time for parent 1 only. -/
def ctParent : CTRows := [(1, 5)]

/-- An events table with a `SUBJECT_ID`, a time column and a value. -/
def tblEvents : Table :=
  Table.mk ["SUBJECT_ID", "CHARTTIME", "VALUE"]
    [[7, 100, 1], [7, 200, 2], [8, 150, 3], [7, 300, 4]]

/-- A row of `tblEvents`-shape timestamped after the cutoff 250. -/
def lateRow : List Int := [7, 251, 5]

/-- Source table 1 for merging: features `X` and `Y` on index `[1, 2]`. -/
def ftabA : FTab := FTab.mk [1, 2] [("X", [10, 20]), ("Y", [1, 2])]

/-- Source table 2: a clashing `X` (different values) and a fresh `Z`. -/
def ftabB : FTab := FTab.mk [1, 2] [("X", [77, 88]), ("Z", [5, 6])]

/-- The merged matrix of `ftabA` and `ftabB`: first-seen `X` wins. -/
def mergedAB : MTab × List String :=
  (MTab.mk [1, 2]
    [("X", [some 10, some 20]), ("Y", [some 1, some 2]), ("Z", [some 5, some 6])],
   ["X", "Y", "Z"])

/-- A matrix with an unfiltered column that is *not* a name-prefix of the
filtered column, yet contains its pre-`WHERE` part as a substring. -/
def ftabUn : FTab :=
  FTab.mk [1] [("A MEAN(V)", [3]), ("MEAN(V) WHERE I", [4])]

def flUn : List String := ["A MEAN(V)", "MEAN(V) WHERE I"]

/-- Feature matrix for the what-if engine: numeric `F` has mean 12 and
sample std 4 (high boundary 19.84) with the target instance 1 holding 20;
numeric `G` is constant; `H` is non-numeric. -/
def fmW : FMat :=
  FMat.mk [1, 2, 3, 4, 5, 6]
    [("F", true, [20, 9, 10, 11, 11, 11]),
     ("G", true, [5, 5, 5, 5, 5, 5]),
     ("H", false, [0, 0, 0, 0, 0, 0])]

/-- Concrete stand-ins for the external attribution and prediction
collaborators, used by witnesses. -/
def zeroEF : List ℝ → String → ℝ := fun _ _ => 0

def zeroPF : List ℝ → ℝ := fun _ => 0

/-! # Theorems -/

/-! ## Record windowing: the leakage invariant (C1) -/

theorem get_records_shape (T : Table) (sid : Int) (tix : String) (c : Int) :
    get_records T sid (some tix) (some c)
      = Table.mk T.colNames
          ((if "SUBJECT_ID" ∈ T.colNames then
              T.rows.filter (fun r => T.cell r "SUBJECT_ID" == some sid)
            else T.rows).filter (fun r => timeLeB (T.cell r tix) c)) := by
  by_cases hs : "SUBJECT_ID" ∈ T.colNames <;>
    simp [get_records, hs, Table.cell]

/-- C1.  Leakage invariant of `get_records`: with a time-index column and a
cutoff time given, (i) every returned row carries a time-index value `<=` the
cutoff time, (ii) appending a row timestamped after the cutoff leaves the
returned window unchanged, and (iii) therefore no feature computed from
the window can be influenced by such a row. -/
theorem get_records_leakage (T : Table) (sid : Int) (tix : String) (c : Int) :
    (∀ r ∈ (get_records T sid (some tix) (some c)).rows,
       ∃ v, T.cell r tix = some v ∧ v ≤ c) ∧
    (∀ e v, T.cell e tix = some v → c < v →
       get_records (Table.mk T.colNames (T.rows ++ [e])) sid (some tix) (some c)
         = get_records T sid (some tix) (some c)) ∧
    (∀ e v (feat : Table → Int), T.cell e tix = some v → c < v →
       feat (get_records (Table.mk T.colNames (T.rows ++ [e])) sid (some tix) (some c))
         = feat (get_records T sid (some tix) (some c))) := by
  have hwin : ∀ e v, T.cell e tix = some v → c < v →
      get_records (Table.mk T.colNames (T.rows ++ [e])) sid (some tix) (some c)
        = get_records T sid (some tix) (some c) := by
    intro e v hev hlt
    have hTe : (Table.mk T.colNames (T.rows ++ [e])).cell = T.cell := rfl
    rw [get_records_shape, get_records_shape]
    have htime : timeLeB (T.cell e tix) c = false := by
      rw [hev]; simp only [timeLeB, decide_eq_false_iff_not]; omega
    by_cases hs : "SUBJECT_ID" ∈ T.colNames <;>
      simp [hs, hTe, List.filter_append, htime, List.filter]
    by_cases hsub : (T.cell e "SUBJECT_ID" == some sid) = true <;>
      simp [hsub, List.filter, htime]
  refine ⟨?_, hwin, fun e v feat hev hlt => congrArg feat (hwin e v hev hlt)⟩
  intro r hr
  rw [get_records_shape] at hr
  simp only [List.mem_filter] at hr
  rcases h2 : T.cell r tix with _ | v
  · rw [h2] at hr; simp [timeLeB] at hr
  · rw [h2] at hr
    exact ⟨v, rfl, by simpa [timeLeB] using hr.2⟩

/-- Witness for the leakage invariant, on a concrete events table with a
cutoff of 250 and a row charted at 251. -/
theorem get_records_leakage_w :
    (∃ v, tblEvents.cell [7, 100, 1] "CHARTTIME" = some v ∧ v ≤ 250) ∧
    get_records (Table.mk tblEvents.colNames (tblEvents.rows ++ [lateRow])) 7
        (some "CHARTTIME") (some 250)
      = get_records tblEvents 7 (some "CHARTTIME") (some 250) :=
  ⟨(get_records_leakage tblEvents 7 "CHARTTIME" 250).1 [7, 100, 1] (by decide),
   (get_records_leakage tblEvents 7 "CHARTTIME" 250).2.1 lateRow 251 (by decide)
     (by decide)⟩

/-! ## Cutoff-time reduction modes (C2) -/

/-- C2.  Reduction modes of `transfer_cutoff_times` on children cutoff-timed
at 10:00 and 14:00 (minutes 600 and 840): the spelled-out mode
`"earliest"` raises "Unknown reduce option." instead of reducing to the
minimum — the code only recognises the misspelling `"earist"` — while
`"latest"` correctly assigns the maximum. -/
theorem transfer_reduction_earliest_bug :
    transfer_cutoff_times esPA ctChildren "A" "P" "earliest"
        = Except.error "Unknown reduce option." ∧
    transfer_cutoff_times esPA ctChildren "A" "P" "latest" = Except.ok [(1, 840)] ∧
    transfer_cutoff_times esPA ctChildren "A" "P" "earist" = Except.ok [(1, 600)] :=
  ⟨by decide, by decide, by decide⟩

/-! ## Path resolution is depth-first, not breadth-first (C3) -/

/-- C3, counterexample.  On the graph `T—A, T—B, B—C, C—S, A—S` the search
returns the three-hop path `S, C, B, T` although the two-hop chain
`S, A, T` exists: the traversal pops from the end of the pipe (a stack,
depth-first), so the first path found is not shortest in hop count. -/
theorem find_path_not_shortest_cex :
    findPathLast esDfs "S" "T" = some ["S", "C", "B", "T"] ∧
    chainB esDfs ["S", "A", "T"] = true ∧
    (["S", "A", "T"] : List String).length
      < (["S", "C", "B", "T"] : List String).length :=
  ⟨by decide, by decide, by decide⟩

/-! ## Cutoff-time hop semantics (C4) -/

theorem lookupAll_all_some (rows : CTRows) :
    ∀ (ks : List Int), (∀ k ∈ ks, (ctLookup rows k).isSome) →
      lookupAll rows ks = some (ks.map (fun k => (ctLookup rows k).getD 0))
  | [], _ => rfl
  | k :: ks, h => by
      have hk := h k (List.mem_cons_self _ _)
      rcases hsome : ctLookup rows k with _ | t
      · rw [hsome] at hk; cases hk
      · rw [show lookupAll rows (k :: ks)
            = match ctLookup rows k, lookupAll rows ks with
              | some t, some ts => some (t :: ts)
              | _, _ => none from rfl,
          lookupAll_all_some rows ks (fun x hx => h x (List.mem_cons_of_mem _ hx)),
          hsome]
        simp [hsome]

theorem lookupAll_missing (rows : CTRows) :
    ∀ (ks : List Int), (∃ k ∈ ks, ctLookup rows k = none) →
      lookupAll rows ks = none
  | [], h => by rcases h with ⟨k, hk, _⟩; cases hk
  | k :: ks, h => by
      rcases h with ⟨k0, hk0, hnone⟩
      rcases List.mem_cons.mp hk0 with rfl | hk0tail
      · cases hrest : lookupAll rows ks <;> simp [lookupAll, hnone, hrest]
      · have hrec := lookupAll_missing rows ks ⟨k0, hk0tail, hnone⟩
        cases hct : ctLookup rows k <;> simp [lookupAll, hct, hrec]

theorem mem_insSorted (x y : Int) : ∀ (l : List Int), y ∈ insSorted x l ↔ y ∈ x :: l
  | [] => by simp [insSorted]
  | z :: zs => by
      by_cases hxz : x ≤ z
      · simp [insSorted, hxz]
      · simp only [insSorted, if_neg hxz, List.mem_cons, mem_insSorted x y zs]
        tauto

theorem mem_sortInts (y : Int) : ∀ (l : List Int), y ∈ sortInts l ↔ y ∈ l
  | [] => Iff.rfl
  | x :: xs => by
      simp only [sortInts, mem_insSorted, List.mem_cons, mem_sortInts y xs]

theorem maxTimeOf_ne_none : ∀ (ts : List Int) (m : Int),
    (ts.foldl (fun acc t => match acc with
      | none => some t
      | some m => some (max m t)) (some m)).isSome
  | [], _ => rfl
  | t :: ts, m => by
      simpa [List.foldl] using maxTimeOf_ne_none ts (max m t)

theorem minTimeOf_ne_none : ∀ (ts : List Int) (m : Int),
    (ts.foldl (fun acc t => match acc with
      | none => some t
      | some m => some (min m t)) (some m)).isSome
  | [], _ => rfl
  | t :: ts, m => by
      simpa [List.foldl] using minTimeOf_ne_none ts (min m t)

/-- C4, counterexample.  A parent→child broadcast where one child row
references a parent with no cutoff time fails with a `KeyError` for the
whole call — the child is not silently excluded from the output mapping,
and the connected child (parent 1 has cutoff 5) receives nothing either. -/
theorem transfer_missing_parent_cex :
    transfer_cutoff_times esPAgap ctParent "P" "A" "latest"
        = Except.error "KeyError" ∧
    ctLookup ctParent 1 = some 5 :=
  ⟨by decide, by decide⟩

/-- C4, amended.  Hop semantics of the propagation: (i) when every child key
has a cutoff time, a parent→child hop broadcasts — each child row receives
exactly the cutoff time of its parent key, so all children of one parent get
identical values and each child exactly one; (ii) when some child key has no
cutoff time, the hop raises `KeyError` instead of excluding that child;
(iii) in a child→parent hop, a parent key appears in the output iff at least
one cutoff row aligns to it — parents with no covered children are
excluded. -/
theorem cutoff_hop_broadcast :
    (∀ (index ks : List Int) (rows : CTRows),
       (∀ k ∈ ks, (ctLookup rows k).isSome) →
       parentToChildKs index ks rows
         = Except.ok (index.zip (ks.map (fun k => (ctLookup rows k).getD 0)))) ∧
    (∀ (index ks : List Int) (rows : CTRows),
       (∃ k ∈ ks, ctLookup rows k = none) →
       parentToChildKs index ks rows = Except.error "KeyError") ∧
    (∀ (index ks : List Int) (rows : CTRows) (b : Bool) (k : Int),
       (∃ t, (k, t) ∈ childToParentKs index ks rows b) ↔
         ∃ p ∈ rows, lkIdx index ks p.1 = some k) := by
  refine ⟨?_, ?_, ?_⟩
  · intro index ks rows h
    simp [parentToChildKs, lookupAll_all_some rows ks h]
  · intro index ks rows h
    simp [parentToChildKs, lookupAll_missing rows ks h]
  · intro index ks rows b k
    constructor
    · rintro ⟨t, ht⟩
      simp only [childToParentKs, List.mem_filterMap] at ht
      rcases ht with ⟨k1, hk1, hred⟩
      rcases hr : (if b then maxTimeOf else minTimeOf) (groupTimes
          (alignedPairs index ks rows) k1) with _ | t1
      · rw [hr] at hred; cases hred
      · rw [hr] at hred
        simp only [Option.map_some', Option.some.injEq, Prod.mk.injEq] at hred
        rcases hred with ⟨rfl, _⟩
        rw [mem_sortInts, List.mem_dedup, List.mem_filterMap] at hk1
        rcases hk1 with ⟨q, hq, hq2⟩
        simp only [alignedPairs, List.mem_map] at hq
        rcases hq with ⟨p, hp, rfl⟩
        exact ⟨p, hp, hq2⟩
    · rintro ⟨p, hp, hlk⟩
      have hkmem : k ∈ (alignedPairs index ks rows).filterMap (fun q => q.2) := by
        rw [List.mem_filterMap]
        exact ⟨(p, lkIdx index ks p.1), by
          simp only [alignedPairs, List.mem_map]; exact ⟨p, hp, rfl⟩, hlk⟩
      have hkeys : k ∈ sortInts ((alignedPairs index ks rows).filterMap
          (fun q => q.2)).dedup := by
        rw [mem_sortInts, List.mem_dedup]; exact hkmem
      have hgt : p.2 ∈ groupTimes (alignedPairs index ks rows) k := by
        rw [groupTimes, List.mem_filterMap]
        refine ⟨(p, lkIdx index ks p.1), ?_, ?_⟩
        · simp only [alignedPairs, List.mem_map]; exact ⟨p, hp, rfl⟩
        · simp [hlk]
      have hne : groupTimes (alignedPairs index ks rows) k ≠ [] := by
        intro hemp; rw [hemp] at hgt; cases hgt
      have hsome : ((if b then maxTimeOf else minTimeOf)
          (groupTimes (alignedPairs index ks rows) k)).isSome := by
        rcases hgl : groupTimes (alignedPairs index ks rows) k with _ | ⟨t0, ts⟩
        · exact absurd hgl hne
        · cases b
          · simpa [minTimeOf, List.foldl] using minTimeOf_ne_none ts t0
          · simpa [maxTimeOf, List.foldl] using maxTimeOf_ne_none ts t0
      rcases hval : (if b then maxTimeOf else minTimeOf)
          (groupTimes (alignedPairs index ks rows) k) with _ | t
      · rw [hval] at hsome; cases hsome
      · refine ⟨t, ?_⟩
        simp only [childToParentKs, List.mem_filterMap]
        exact ⟨k, hkeys, by rw [hval]; rfl⟩

/-- Witness for the hop semantics: a successful broadcast, a failing
broadcast, and a child→parent reduction whose output covers parent 1. -/
theorem cutoff_hop_broadcast_w :
    parentToChildKs [10, 11] [1, 1] ctParent = Except.ok [(10, 5), (11, 5)] ∧
    parentToChildKs [10, 11] [1, 2] ctParent = Except.error "KeyError" ∧
    (∃ t, (1, t) ∈ childToParentKs [10, 11] [1, 1] ctChildren true) :=
  ⟨(cutoff_hop_broadcast.1 [10, 11] [1, 1] ctParent (by decide)).trans (by decide),
   cutoff_hop_broadcast.2.1 [10, 11] [1, 2] ctParent ⟨2, by decide, by decide⟩,
   (cutoff_hop_broadcast.2.2 [10, 11] [1, 1] ctChildren true 1).mpr
     ⟨(10, 600), by decide, by decide⟩⟩

/-! ## Caller-frame mutation of `transfer_cutoff_times` (C10) -/

/-- C10, counterexample.  `transfer_cutoff_times` mutates the caller's
cutoff-time frame when the first hop is child→parent: the statement
`cutoff_times[r.child_column] = ...` executes on the caller's object before
any rebinding, so the caller's frame gains the child-key column `pid`. -/
theorem transfer_mutates_caller_cex :
    (transferFull esPA ctChildren "A" "P" "latest").2
        = CTFrame.mk ctChildren [("pid", [some 1, some 1])] ∧
    (transferFull esPA ctChildren "A" "P" "latest").2 ≠ CTFrame.mk ctChildren [] :=
  ⟨by decide, by decide⟩

/-- The in-place writes a single hop performs on its input frame: none,
except in the child→parent branch, which adds the aligned child-key
column. -/
theorem hopFull_extra (es : EntitySet) (red : String) (rows : CTRows)
    (s1 t1 : String) :
    (hopFull es red rows s1 t1).2 = [] ∨
      ∃ (r : Rel) (child : EDF) (ks : List Int),
        relBetween es s1 t1 = some r ∧ s1 = r.child ∧ t1 ≠ r.child ∧
        es.getDF r.child = some child ∧ child.colV r.childCol = some ks ∧
        (hopFull es red rows s1 t1).2
          = [(r.childCol, alignChildCol child.index ks rows)] := by
  unfold hopFull
  split
  · exact Or.inl rfl
  · rename_i r hrb
    split
    · rename_i ht1
      split
      · exact Or.inl rfl
      · split <;> exact Or.inl rfl
    · rename_i ht1
      split
      · rename_i hs1
        split
        · exact Or.inl rfl
        · rename_i child hdf
          split
          · exact Or.inl rfl
          · rename_i ks hcv
            refine Or.inr ⟨r, child, ks, hrb, hs1, ht1, hdf, hcv, ?_⟩
            split_ifs <;> rfl
      · exact Or.inl rfl

/-- C10, amended.  The caller's frame keeps its rows (index and time values)
unchanged in every case, and it is mutated only by gaining the child-key
column when the first hop of the resolved path takes the child→parent
branch; `find_path` itself only reads the graph. -/
theorem transfer_caller_frame (es : EntitySet) (ct : CTRows) (s t red : String) :
    (transferFull es ct s t red).2.rows = ct ∧
    ((transferFull es ct s t red).2.extra = [] ∨
      ∃ (path : List String) (s1 t1 : String) (rest : List (String × String))
        (r : Rel) (child : EDF) (ks : List Int),
        findPathLast es s t = some path ∧
        path.zip path.tail = (s1, t1) :: rest ∧
        relBetween es s1 t1 = some r ∧ s1 = r.child ∧ t1 ≠ r.child ∧
        es.getDF r.child = some child ∧ child.colV r.childCol = some ks ∧
        (transferFull es ct s t red).2.extra
          = [(r.childCol, alignChildCol child.index ks ct)]) := by
  cases hfp : findPathLast es s t with
  | none => exact ⟨by simp [transferFull, hfp], Or.inl (by simp [transferFull, hfp])⟩
  | some path =>
      cases hz : path.zip path.tail with
      | nil =>
          exact ⟨by simp [transferFull, hfp, hz],
                 Or.inl (by simp [transferFull, hfp, hz])⟩
      | cons st rest =>
          obtain ⟨s1, t1⟩ := st
          have hextra : (transferFull es ct s t red).2.extra
              = (hopFull es red ct s1 t1).2 := by
            simp [transferFull, hfp, hz]
          refine ⟨by simp [transferFull, hfp, hz], ?_⟩
          rcases hopFull_extra es red ct s1 t1 with h |
            ⟨r, child, ks, hrb, hs1, ht1, hdf, hcv, hmuts⟩
          · exact Or.inl (hextra.trans h)
          · exact Or.inr ⟨path, s1, t1, rest, r, child, ks, rfl, hz, hrb, hs1,
              ht1, hdf, hcv, hextra.trans hmuts⟩

/-- Witness: on the concrete child→parent hop the caller's rows are
preserved. -/
theorem transfer_caller_frame_w :
    (transferFull esPA ctChildren "A" "P" "latest").2.rows = ctChildren :=
  (transfer_caller_frame esPA ctChildren "A" "P" "latest").1

/-! ## Merge precedence (C7) -/

theorem find?_fst_map_snd {β : Type} (g : List Int → β) (n : String) :
    ∀ (cols : List (String × List Int)),
      (cols.map (fun p => (p.1, g p.2))).find? (fun p => p.1 == n)
        = (cols.find? (fun p => p.1 == n)).map (fun p => (p.1, g p.2))
  | [] => rfl
  | c :: cs => by
      cases hn : (c.1 == n) with
      | true => simp [List.find?, hn]
      | false => simp [List.find?, hn, find?_fst_map_snd g n cs]

theorem liftFT_getCol (t : FTab) (n : String) :
    mtGetCol (liftFT t) n = (ftGetCol t n).map (fun vs => vs.map some) := by
  simp only [mtGetCol, liftFT, ftGetCol, find?_fst_map_snd]
  cases t.cols.find? (fun p => p.1 == n) <;> rfl

theorem mtGetCol_none_iff (t : MTab) (n : String) :
    mtGetCol t n = none ↔ n ∉ mtColNames t := by
  rw [mtGetCol]
  cases hf : t.cols.find? (fun p => p.1 == n) with
  | none =>
      constructor
      · intro _ hmem
        simp only [mtColNames, List.mem_map] at hmem
        rcases hmem with ⟨p, hp, rfl⟩
        have := List.find?_eq_none.mp hf p hp
        simp at this
      · intro _
        rfl
  | some p =>
      constructor
      · intro hcontra
        cases hcontra
      · intro hmem
        exfalso
        apply hmem
        simp only [mtColNames, List.mem_map]
        have hpn := List.find?_some hf
        exact ⟨p, List.mem_of_find?_eq_some hf, by simpa using hpn⟩

theorem ftGetCol_isSome_iff (t : FTab) (n : String) :
    (ftGetCol t n).isSome ↔ n ∈ ftColNames t := by
  simp only [ftGetCol, ftColNames, List.mem_map]
  cases hf : t.cols.find? (fun p => p.1 == n) with
  | none =>
      simp only [Option.map_none', Option.isSome_none, Bool.false_eq_true,
        false_iff]
      rintro ⟨p, hp, rfl⟩
      have := List.find?_eq_none.mp hf p hp
      simpa using this
  | some p =>
      have hmem := List.mem_of_find?_eq_some hf
      have hpn := List.find?_some hf
      simp only [Option.map_some', Option.isSome_some, true_iff]
      exact ⟨p, hmem, by simpa using hpn⟩

theorem addFeat_index (acc : MTab × List String) (src : FTab) (f : String)
    (acc1 : MTab × List String) (h : addFeat acc src f = some acc1) :
    acc1.1.index = acc.1.index := by
  rw [addFeat] at h
  split at h
  · cases h; rfl
  · cases hg : ftGetCol src f with
    | none => rw [hg] at h; cases h
    | some vals => rw [hg] at h; cases h; rfl

theorem addFeat_mono (acc : MTab × List String) (src : FTab) (f n : String)
    (v : List (Option Int)) (acc1 : MTab × List String)
    (hv : mtGetCol acc.1 n = some v) (h : addFeat acc src f = some acc1) :
    mtGetCol acc1.1 n = some v := by
  rw [addFeat] at h
  split at h
  · cases h; exact hv
  · cases hg : ftGetCol src f with
    | none => rw [hg] at h; cases h
    | some vals =>
        rw [hg] at h; cases h
        simp only [mtGetCol, List.find?_append] at hv ⊢
        cases hfind : acc.1.cols.find? (fun p => p.1 == n) with
        | none => rw [hfind] at hv; cases hv
        | some p =>
            rw [hfind] at hv
            simpa [Option.or] using hv

theorem addFeats_index (src : FTab) :
    ∀ (fl : List String) (acc acc1 : MTab × List String),
      addFeats acc src fl = some acc1 → acc1.1.index = acc.1.index
  | [], acc, acc1, h => by cases h; rfl
  | f :: fs, acc, acc1, h => by
      rw [addFeats] at h
      cases ha : addFeat acc src f with
      | none => rw [ha] at h; cases h
      | some acc2 =>
          rw [ha] at h
          rw [addFeats_index src fs acc2 acc1 h, addFeat_index acc src f acc2 ha]

theorem addFeats_mono (src : FTab) :
    ∀ (fl : List String) (acc acc1 : MTab × List String) (n : String)
      (v : List (Option Int)),
      mtGetCol acc.1 n = some v → addFeats acc src fl = some acc1 →
      mtGetCol acc1.1 n = some v
  | [], acc, acc1, n, v, hv, h => by cases h; exact hv
  | f :: fs, acc, acc1, n, v, hv, h => by
      rw [addFeats] at h
      cases ha : addFeat acc src f with
      | none => rw [ha] at h; cases h
      | some acc2 =>
          rw [ha] at h
          exact addFeats_mono src fs acc2 acc1 n v
            (addFeat_mono acc src f n v acc2 hv ha) h

theorem mergeLoop_index :
    ∀ (srcs : List (FTab × List String)) (acc out : MTab × List String),
      mergeLoop acc srcs = some out → out.1.index = acc.1.index
  | [], acc, out, h => by cases h; rfl
  | (src, fl) :: rest, acc, out, h => by
      rw [mergeLoop] at h
      cases ha : addFeats acc src fl with
      | none => rw [ha] at h; cases h
      | some acc1 =>
          rw [ha] at h
          rw [mergeLoop_index rest acc1 out h, addFeats_index src fl acc acc1 ha]

theorem mergeLoop_mono :
    ∀ (srcs : List (FTab × List String)) (acc out : MTab × List String)
      (n : String) (v : List (Option Int)),
      mtGetCol acc.1 n = some v → mergeLoop acc srcs = some out →
      mtGetCol out.1 n = some v
  | [], acc, out, n, v, hv, h => by cases h; exact hv
  | (src, fl) :: rest, acc, out, n, v, hv, h => by
      rw [mergeLoop] at h
      cases ha : addFeats acc src fl with
      | none => rw [ha] at h; cases h
      | some acc1 =>
          rw [ha] at h
          exact mergeLoop_mono rest acc1 out n v
            (addFeats_mono src fl acc acc1 n v hv ha) h

theorem addFeats_absent (src : FTab) :
    ∀ (fl : List String) (acc acc1 : MTab × List String) (n : String),
      n ∉ mtColNames acc.1 → n ∉ fl → addFeats acc src fl = some acc1 →
      n ∉ mtColNames acc1.1
  | [], acc, acc1, n, hn, _, h => by cases h; exact hn
  | f :: fs, acc, acc1, n, hn, hnfl, h => by
      rw [addFeats] at h
      cases ha : addFeat acc src f with
      | none => rw [ha] at h; cases h
      | some acc2 =>
          rw [ha] at h
          refine addFeats_absent src fs acc2 acc1 n ?_
            (fun hmem => hnfl (List.mem_cons_of_mem _ hmem)) h
          rw [addFeat] at ha
          split at ha
          · cases ha; exact hn
          · cases hg : ftGetCol src f with
            | none => rw [hg] at ha; cases ha
            | some vals =>
                rw [hg] at ha; cases ha
                simp only [mtColNames, List.map_append, List.mem_append] at hn ⊢
                rintro (hmem | hmem)
                · exact hn hmem
                · have : n = f := by simpa using hmem
                  exact hnfl (this ▸ List.mem_cons_self _ _)

theorem addFeats_first (src : FTab) :
    ∀ (fl : List String) (acc acc1 : MTab × List String) (n : String),
      n ∉ mtColNames acc.1 → n ∈ fl → addFeats acc src fl = some acc1 →
      ∃ vals, ftGetCol src n = some vals ∧
        mtGetCol acc1.1 n = some (alignCol acc.1.index src vals)
  | [], _, _, n, _, hmem, _ => absurd hmem (List.not_mem_nil n)
  | f :: fs, acc, acc1, n, hn, hmem, h => by
      rw [addFeats] at h
      cases ha : addFeat acc src f with
      | none => rw [ha] at h; cases h
      | some acc2 =>
          rw [ha] at h
          by_cases hfn : f = n
          · subst hfn
            rw [addFeat] at ha
            split at ha
            · rename_i hin
              exact absurd hin hn
            · cases hg : ftGetCol src f with
              | none => rw [hg] at ha; cases ha
              | some vals =>
                  rw [hg] at ha
                  cases ha
                  refine ⟨vals, rfl, ?_⟩
                  refine addFeats_mono src fs _ acc1 f _ ?_ h
                  have hfind : acc.1.cols.find? (fun p => p.1 == f) = none := by
                    have h0 := (mtGetCol_none_iff acc.1 f).mpr hn
                    rw [mtGetCol] at h0
                    cases hff : acc.1.cols.find? (fun p => p.1 == f) with
                    | none => rfl
                    | some q => rw [hff] at h0; cases h0
                  simp [mtGetCol, List.find?_append, hfind, List.find?, Option.or]
          · have hmem2 : n ∈ fs := by
              rcases List.mem_cons.mp hmem with h1 | h1
              · exact absurd h1.symm hfn
              · exact h1
            have hn2 : n ∉ mtColNames acc2.1 := by
              rw [addFeat] at ha
              split at ha
              · cases ha; exact hn
              · cases hg : ftGetCol src f with
                | none => rw [hg] at ha; cases ha
                | some vals =>
                    rw [hg] at ha; cases ha
                    simp only [mtColNames, List.map_append, List.mem_append] at hn ⊢
                    rintro (hmem | hmem)
                    · exact hn hmem
                    · have hnf : n = f := by simpa using hmem
                      exact hfn hnf.symm
            have hidx := addFeat_index acc src f acc2 ha
            have := addFeats_first src fs acc2 acc1 n hn2 hmem2 h
            rwa [hidx] at this

theorem mergeLoop_first :
    ∀ (pre : List (FTab × List String)) (x : FTab × List String)
      (post : List (FTab × List String)) (acc out : MTab × List String)
      (n : String),
      n ∉ mtColNames acc.1 → (∀ y ∈ pre, n ∉ y.2) → n ∈ x.2 →
      mergeLoop acc (pre ++ x :: post) = some out →
      ∃ vals, ftGetCol x.1 n = some vals ∧
        mtGetCol out.1 n = some (alignCol acc.1.index x.1 vals)
  | [], x, post, acc, out, n, hn, _, hx, h => by
      rw [List.nil_append, mergeLoop] at h
      cases ha : addFeats acc x.1 x.2 with
      | none => rw [ha] at h; cases h
      | some acc1 =>
          rw [ha] at h
          rcases addFeats_first x.1 x.2 acc acc1 n hn hx ha with ⟨vals, hg, hcol⟩
          exact ⟨vals, hg, mergeLoop_mono post acc1 out n _ hcol h⟩
  | y :: pre, x, post, acc, out, n, hn, hpre, hx, h => by
      rw [List.cons_append, mergeLoop] at h
      cases ha : addFeats acc y.1 y.2 with
      | none => rw [ha] at h; cases h
      | some acc1 =>
          rw [ha] at h
          have hn1 : n ∉ mtColNames acc1.1 :=
            addFeats_absent y.1 y.2 acc acc1 n hn
              (hpre y (List.mem_cons_self _ _)) ha
          have hidx := addFeats_index y.1 y.2 acc acc1 ha
          have := mergeLoop_first pre x post acc1 out n hn1
            (fun z hz => hpre z (List.mem_cons_of_mem _ hz)) hx h
          rwa [hidx] at this

theorem lkIdx_self :
    ∀ (idx : List Int) (vals : List Int), idx.Nodup → vals.length = idx.length →
      idx.map (fun i => lkIdx idx vals i) = vals.map some
  | [], [], _, _ => rfl
  | [], v :: vs, _, hl => by cases hl
  | i :: is, [], _, hl => by cases hl
  | i :: is, v :: vs, hnd, hl => by
      simp only [List.length_cons, Nat.succ.injEq] at hl
      rcases List.nodup_cons.mp hnd with ⟨hni, hnd2⟩
      have hhead : lkIdx (i :: is) (v :: vs) i = some v := by
        simp [lkIdx, List.find?]
      have htail : is.map (fun x => lkIdx (i :: is) (v :: vs) x)
          = is.map (fun x => lkIdx is vs x) := by
        refine List.map_congr_left ?_
        intro x hx
        have hxi : (i == x) = false := by
          simp only [beq_eq_false_iff_ne, ne_eq]
          intro hix
          exact hni (hix ▸ hx)
        simp [lkIdx, List.find?, hxi, List.zip]
      simp only [List.map_cons, hhead, htail, lkIdx_self is vs hnd2 hl]

theorem mtColNames_liftFT (t : FTab) : mtColNames (liftFT t) = ftColNames t := by
  simp [mtColNames, liftFT, ftColNames, List.map_map, Function.comp]

/-- C7.  Merge precedence of `merge_features`: (i) a feature name present in
the first source keeps the first source's column verbatim in the merged
matrix; (ii) a name absent from the first table and first produced by source
`x` (no earlier source lists it) receives `x`'s column aligned onto the
shared index; (iii) on a shared unique index of matching length that
alignment is the identity, so the merged column equals the first-seen
source's values entry for entry, and later duplicates are dropped. -/
theorem merge_first_seen (fm0 : FTab) (fms : List FTab) (fl0 : List String)
    (fls : List (List String)) (out : MTab × List String) (name : String)
    (hm : merge_features (fm0 :: fms) (fl0 :: fls) = some out) :
    (name ∈ ftColNames fm0 →
       mtGetCol out.1 name = (ftGetCol fm0 name).map (fun vs => vs.map some)) ∧
    (∀ pre x post, (fm0 :: fms).zip (fl0 :: fls) = pre ++ x :: post →
       (∀ y ∈ pre, name ∉ y.2) → name ∈ x.2 →
       name ∉ ftColNames fm0 →
       ∃ vals, ftGetCol x.1 name = some vals ∧
         mtGetCol out.1 name = some (alignCol fm0.index x.1 vals)) ∧
    (∀ (src : FTab) (vals : List Int), src.index = fm0.index →
       fm0.index.Nodup → vals.length = fm0.index.length →
       alignCol fm0.index src vals = vals.map some) := by
  have hm2 : mergeLoop (liftFT fm0, fl0) ((fm0 :: fms).zip (fl0 :: fls))
      = some out := hm
  refine ⟨?_, ?_, ?_⟩
  · intro hname
    rcases hsome : ftGetCol fm0 name with _ | vs
    · have := (ftGetCol_isSome_iff fm0 name).mpr hname
      rw [hsome] at this
      cases this
    · have hlift : mtGetCol (liftFT fm0) name = some (vs.map some) := by
        rw [liftFT_getCol, hsome]
        rfl
      simpa using mergeLoop_mono ((fm0 :: fms).zip (fl0 :: fls))
        (liftFT fm0, fl0) out name (vs.map some) hlift hm2
  · intro pre x post hsplit hpre hx hnot0
    have hn0 : name ∉ mtColNames (liftFT fm0, fl0).1 := by
      rw [mtColNames_liftFT]
      exact hnot0
    rw [hsplit] at hm2
    exact mergeLoop_first pre x post (liftFT fm0, fl0) out name hn0 hpre hx hm2
  · intro src vals hsrc hnd hlen
    rw [alignCol, hsrc]
    exact lkIdx_self fm0.index vals hnd hlen

/-- Witness for merge precedence on the concrete tables: `X` (produced by
both sources) keeps the first source's values; `Z` (produced only by the
second source) receives the second source's values, and the alignment is the
identity on the shared index. -/
theorem merge_first_seen_w :
    mtGetCol mergedAB.1 "X" = some [some 10, some 20] ∧
    mtGetCol mergedAB.1 "Z" = some (alignCol ftabA.index ftabB [5, 6]) ∧
    alignCol ftabA.index ftabB [5, 6] = [5, 6].map some := by
  have hm : merge_features [ftabA, ftabB] [["X", "Y"], ["X", "Z"]]
      = some mergedAB := by decide
  have H := merge_first_seen ftabA [ftabB] ["X", "Y"] [["X", "Z"]] mergedAB "X" hm
  have H2 := merge_first_seen ftabA [ftabB] ["X", "Y"] [["X", "Z"]] mergedAB "Z" hm
  refine ⟨(H.1 (by decide)).trans (by decide), ?_, ?_⟩
  · rcases H2.2.1 [(ftabA, ["X", "Y"])] (ftabB, ["X", "Z"]) [] (by decide)
        (by decide) (by decide) (by decide) with ⟨vals, hg, hcol⟩
    have hv : vals = [5, 6] := by
      have h2 : ftGetCol ftabB "Z" = some [5, 6] := by decide
      exact Option.some.inj (hg.symm.trans h2)
    rw [hv] at hcol
    exact hcol
  · exact H2.2.2 ftabB [5, 6] (by decide) (by decide) (by decide)

/-! ## Uninterpretable-feature pruning is a substring test (C8) -/

/-- C8, counterexample.  `"A MEAN(V)"` is not a prefix of
`"MEAN(V) WHERE I"`, yet it is dropped from the matrix and the descriptor
list, because the code tests whether the WHERE-feature's pre-`WHERE` part
occurs anywhere inside the unfiltered name (`prefix in column`), not
whether the unfiltered name is a prefix of the filtered name. -/
theorem remove_uninterpretable_cex :
    (remove_uninterpretable_features ftabUn flUn).1.cols = [("MEAN(V) WHERE I", [4])] ∧
    (remove_uninterpretable_features ftabUn flUn).2 = ["MEAN(V) WHERE I"] ∧
    ("A MEAN(V)".toList.isPrefixOf "MEAN(V) WHERE I".toList) = false :=
  ⟨by decide, by decide, by decide⟩

/-! ### Search-structure lemmas shared by the path theorems -/

theorem pdLookup_append (pd : PDict) (kv : String × Option String) (k : String) :
    pdLookup (pd ++ [kv]) k
      = (pdLookup pd k).or (if kv.1 = k then some kv.2 else none) := by
  simp only [pdLookup, List.find?_append]
  cases h : pd.find? (fun p => p.1 == k) with
  | some v => simp [Option.or]
  | none =>
      cases hk : (kv.1 == k) with
      | true =>
          have hk2 : kv.1 = k := by simpa using hk
          simp [List.find?, hk, hk2, Option.or]
      | false =>
          have hk2 : ¬ kv.1 = k := by simpa using hk
          simp [List.find?, hk, hk2, Option.or]

theorem adjB_of_childNodes (es : EntitySet) (pn c : String)
    (h : c ∈ childNodes es pn) : adjB es pn c = true ∧ adjB es c pn = true := by
  simp only [childNodes, List.mem_append, backwardNodes, forwardNodes, List.mem_map,
    List.mem_filter] at h
  rcases h with ⟨r, ⟨hr, hp⟩, rfl⟩ | ⟨r, ⟨hr, hp⟩, rfl⟩ <;>
    rw [beq_iff_eq] at hp <;> subst hp <;>
      constructor <;> simp [adjB, List.any_eq_true] <;> exact ⟨r, hr, by simp⟩

theorem visitChildren_adj (es : EntitySet) (pn : String) :
    ∀ (cs : List String) (pd : PDict) (pipe : List String),
      (∀ c ∈ cs, adjB es c pn = true) →
      (∀ k q, pdLookup pd k = some (some q) → adjB es k q = true) →
      ∀ k q, pdLookup (visitChildren pd pipe pn cs).1 k = some (some q)
        → adjB es k q = true
  | [], pd, pipe, _, hpd => by simpa [visitChildren] using hpd
  | c :: cs, pd, pipe, hcs, hpd => by
      simp only [visitChildren]
      by_cases hc : (pdLookup pd c).isSome
      · rw [if_pos hc]
        exact visitChildren_adj es pn cs pd pipe
          (fun x hx => hcs x (List.mem_cons_of_mem _ hx)) hpd
      · rw [if_neg hc]
        refine visitChildren_adj es pn cs _ _
          (fun x hx => hcs x (List.mem_cons_of_mem _ hx)) ?_
        intro k q hk
        rw [pdLookup_append] at hk
        cases hold : pdLookup pd k with
        | some v =>
            rw [hold] at hk
            simp only [Option.or] at hk
            exact hpd k q (by rw [hold, hk])
        | none =>
            rw [hold] at hk
            simp only [Option.or] at hk
            by_cases hck : c = k
            · rw [if_pos hck] at hk
              cases hk
              subst hck
              exact hcs c (List.mem_cons_self _ _)
            · rw [if_neg hck] at hk
              cases hk

theorem findPathLoop_adj (es : EntitySet) (src : String) :
    ∀ (fuel : Nat) (pipe : List String) (pd : PDict),
      (∀ k q, pdLookup pd k = some (some q) → adjB es k q = true) →
      ∀ k q, pdLookup (findPathLoop es src fuel pipe pd) k = some (some q)
        → adjB es k q = true
  | 0, _, _, hpd => by simpa [findPathLoop] using hpd
  | fuel + 1, pipe, pd, hpd => by
      intro k q hk
      simp only [findPathLoop] at hk
      split at hk
      · exact hpd k q hk
      · split at hk
        · exact hpd k q hk
        · rename_i pn hlast hsrc
          exact findPathLoop_adj es src fuel _ _
            (visitChildren_adj es pn (childNodes es pn) pd pipe.dropLast
              (fun c hc => (adjB_of_childNodes es pn c hc).2) hpd) k q hk

theorem chainB_concat (es : EntitySet) :
    ∀ (q : List String) (x y : String), chainB es q = true → q.getLast? = some x →
      adjB es x y = true → chainB es (q ++ [y]) = true
  | [], x, y, _, hlast, _ => by simp at hlast
  | [a], x, y, _, hlast, hadj => by
      have hx : a = x := by simpa using hlast
      subst hx
      simp [chainB, hadj]
  | a :: b :: rest, x, y, hch, hlast, hadj => by
      simp only [chainB, Bool.and_eq_true] at hch
      have hrec := chainB_concat es (b :: rest) x y hch.2 (by simpa using hlast) hadj
      simp only [List.cons_append, chainB]
      exact by simpa [hch.1] using hrec

theorem buildPaths_valid (es : EntitySet) (pd : PDict) (t s0 : String)
    (hpd : ∀ k q, pdLookup pd k = some (some q) → adjB es k q = true) :
    ∀ (fuel : Nat) (node : String) (paths ps : List (List String))
      (q0 : List String),
      paths.getLast? = some q0 → q0.head? = some s0 → q0.getLast? = some node →
      chainB es q0 = true →
      buildPaths pd t fuel node paths = some ps →
      ∃ q, ps.getLast? = some q ∧ q.head? = some s0 ∧ q.getLast? = some t ∧
        chainB es q = true
  | 0, node, paths, ps, q0, _, _, _, _, hb => by simp [buildPaths] at hb
  | fuel + 1, node, paths, ps, q0, hq0, hhead, hlast, hchain, hb => by
      simp only [buildPaths] at hb
      by_cases ht : node = t
      · rw [if_pos ht] at hb
        cases hb
        subst ht
        exact ⟨q0, hq0, hhead, hlast, hchain⟩
      · rw [if_neg ht] at hb
        cases hlk : pdLookup pd node with
        | none => rw [hlk] at hb; cases hb
        | some v =>
            cases v with
            | none => rw [hlk] at hb; cases hb
            | some p =>
                rw [hlk] at hb
                have hadj : adjB es node p = true := hpd node p hlk
                refine buildPaths_valid es pd t s0 hpd fuel p
                  (paths ++ [(paths.getLast?.getD []) ++ [p]]) ps (q0 ++ [p])
                  ?_ ?_ ?_ ?_ hb
                · rw [hq0]; simp
                · cases q0 <;> simp_all
                · simp
                · exact chainB_concat es q0 node p hchain hlast hadj

/-- C3, amended.  `find_path` performs a deterministic stack-based
(depth-first) search from the target; the path it returns is a valid chain
of adjacent entities from `source` to `target` (shortest-in-hop-count is
*not* guaranteed, see the counterexample). -/
theorem find_path_valid (es : EntitySet) (s t : String) (p : List String)
    (h : findPathLast es s t = some p) :
    p.head? = some s ∧ p.getLast? = some t ∧ chainB es p = true := by
  rcases hfp : find_path es s t with _ | ps
  · rw [findPathLast, hfp] at h; cases h
  · rw [findPathLast, hfp] at h
    simp only [Option.map_some', Option.some.injEq] at h
    have hinit : ∀ k q, pdLookup
        (findPathLoop es s (2 + 2 * es.rels.length) [t] [(t, none)]) k
          = some (some q) → adjB es k q = true := by
      refine findPathLoop_adj es s _ [t] [(t, none)] ?_
      intro k q hk
      simp only [pdLookup, List.find?] at hk
      split at hk <;> simp_all
    rw [find_path] at hfp
    rcases buildPaths_valid es _ t s hinit _ s [[s]] ps [s] rfl rfl rfl rfl hfp with
      ⟨q, hql, hqh, hqt, hqc⟩
    rw [hql] at h
    simp only [Option.getD_some] at h
    subst h
    exact ⟨hqh, hqt, hqc⟩

/-- Witness for path validity on the five-entity graph: the returned
(non-shortest) path `S, C, B, T` is a valid source-to-target chain. -/
theorem find_path_valid_w :
    (["S", "C", "B", "T"] : List String).head? = some "S" ∧
    (["S", "C", "B", "T"] : List String).getLast? = some "T" ∧
    chainB esDfs ["S", "C", "B", "T"] = true :=
  find_path_valid esDfs "S" "T" ["S", "C", "B", "T"] (by decide)

theorem visitChildren_reach (es : EntitySet) (t0 pn : String)
    (hpn : Reach es t0 pn) :
    ∀ (cs : List String) (pd : PDict) (pipe : List String),
      (∀ c ∈ cs, adjB es pn c = true) →
      (∀ k, (pdLookup pd k).isSome → Reach es t0 k) →
      (∀ x ∈ pipe, Reach es t0 x) →
      (∀ k, (pdLookup (visitChildren pd pipe pn cs).1 k).isSome → Reach es t0 k) ∧
      (∀ x ∈ (visitChildren pd pipe pn cs).2, Reach es t0 x)
  | [], pd, pipe, _, hpd, hpipe => by
      exact ⟨by simpa [visitChildren] using hpd, by simpa [visitChildren] using hpipe⟩
  | c :: cs, pd, pipe, hcs, hpd, hpipe => by
      simp only [visitChildren]
      by_cases hc : (pdLookup pd c).isSome
      · rw [if_pos hc]
        exact visitChildren_reach es t0 pn hpn cs pd pipe
          (fun x hx => hcs x (List.mem_cons_of_mem _ hx)) hpd hpipe
      · rw [if_neg hc]
        have hreachc : Reach es t0 c :=
          Relation.ReflTransGen.tail hpn (hcs c (List.mem_cons_self _ _))
        refine visitChildren_reach es t0 pn hpn cs _ _
          (fun x hx => hcs x (List.mem_cons_of_mem _ hx)) ?_ ?_
        · intro k hk
          rw [pdLookup_append] at hk
          cases hold : pdLookup pd k with
          | some v => exact hpd k (by rw [hold]; rfl)
          | none =>
              rw [hold] at hk
              simp only [Option.or] at hk
              by_cases hck : c = k
              · exact hck ▸ hreachc
              · rw [if_neg hck] at hk; cases hk
        · intro x hx
          rcases List.mem_append.mp hx with hx | hx
          · exact hpipe x hx
          · rcases List.mem_singleton.mp hx with rfl
            exact hreachc

theorem findPathLoop_reach (es : EntitySet) (t0 src : String) :
    ∀ (fuel : Nat) (pipe : List String) (pd : PDict),
      (∀ k, (pdLookup pd k).isSome → Reach es t0 k) →
      (∀ x ∈ pipe, Reach es t0 x) →
      ∀ k, (pdLookup (findPathLoop es src fuel pipe pd) k).isSome → Reach es t0 k
  | 0, _, _, hpd, _ => by simpa [findPathLoop] using hpd
  | fuel + 1, pipe, pd, hpd, hpipe => by
      intro k hk
      simp only [findPathLoop] at hk
      split at hk
      · exact hpd k hk
      · split at hk
        · exact hpd k hk
        · rename_i pn hlast hsrc
          have hpn : Reach es t0 pn := hpipe pn (List.mem_of_mem_getLast? hlast)
          have hvc := visitChildren_reach es t0 pn hpn (childNodes es pn) pd pipe.dropLast
            (fun c hc => (adjB_of_childNodes es pn c hc).1) hpd
            (fun x hx => hpipe x (List.mem_of_mem_dropLast hx))
          exact findPathLoop_reach es t0 src fuel _ _ hvc.1 hvc.2 k hk

/-- C9.  Failure modes of `find_path`: when source and target coincide the
result is the single-element path; when the source is not reachable from the
target over the undirected relationship graph (disconnected components, or
an entity name unknown to the graph), the reconstruction fails — the search
never discovers the source, so walking the parent pointers raises. -/
theorem find_path_failure_modes (es : EntitySet) (s t : String) :
    (s = t → find_path es s t = some [[s]]) ∧
    (¬ Reach es t s → s ≠ t → find_path es s t = none) := by
  constructor
  · rintro rfl
    simp [find_path, buildPaths]
  · intro hnr hne
    have hinit1 : ∀ k, (pdLookup [(t, (none : Option String))] k).isSome →
        Reach es t k := by
      intro k hk
      simp only [pdLookup, List.find?] at hk
      by_cases hkt : t = k
      · exact hkt ▸ Relation.ReflTransGen.refl
      · have : (t == k) = false := by simpa using hkt
        rw [this] at hk
        simp at hk
    have hinit2 : ∀ x ∈ [t], Reach es t x := by
      intro x hx
      rcases List.mem_singleton.mp hx with rfl
      exact Relation.ReflTransGen.refl
    have hfinal := findPathLoop_reach es t s (2 + 2 * es.rels.length) [t]
      [(t, none)] hinit1 hinit2
    have hnone : pdLookup
        (findPathLoop es s (2 + 2 * es.rels.length) [t] [(t, none)]) s = none := by
      cases hlk : pdLookup (findPathLoop es s (2 + 2 * es.rels.length) [t]
          [(t, none)]) s with
      | none => rfl
      | some v => exact absurd (hfinal s (by rw [hlk]; rfl)) hnr
    simp [find_path, buildPaths, hne, hnone]

theorem reach_esPA_closed (b : String) (h : Reach esPA "P" b) :
    b = "P" ∨ b = "A" := by
  induction h with
  | refl => exact Or.inl rfl
  | tail hab hbc ih =>
      rcases ih with h1 | h1 <;> subst h1 <;>
        simp only [adjB, esPA, List.any_eq_true] at hbc <;>
          [skip; skip] <;> first
          | (rcases hbc with ⟨r, hr, hcond⟩
             simp only [List.mem_singleton] at hr
             subst hr
             simp only [Bool.or_eq_true, Bool.and_eq_true, beq_iff_eq] at hcond
             rcases hcond with ⟨_, h2⟩ | ⟨h2, _⟩ <;> simp [h2])

theorem notReach_esPA_X : ¬ Reach esPA "P" "X" := by
  intro h
  rcases reach_esPA_closed "X" h with h1 | h1 <;> exact absurd h1 (by decide)

/-- Witness for the failure modes: a same-entity call yields the
single-element path, and an unknown entity name yields an error. -/
theorem find_path_failure_modes_w :
    find_path esPA "P" "P" = some [["P"]] ∧ find_path esPA "X" "P" = none :=
  ⟨(find_path_failure_modes esPA "P" "P").1 rfl,
   (find_path_failure_modes esPA "X" "P").2 notReach_esPA_X (by decide)⟩

/-- C8, amended.  A column survives iff it is not caught by the actual test:
it is dropped exactly when it has no `' WHERE '` and some WHERE-feature's
pre-`WHERE` part occurs as a substring of its name; the descriptor list is
pruned in lockstep to the names of the surviving columns. -/
theorem remove_uninterpretable_amended (fm : FTab) (fl : List String) (c : String) :
    (c ∈ ftColNames (remove_uninterpretable_features fm fl).1 ↔
       c ∈ ftColNames fm ∧
         ¬(whereB c = false ∧
            ∃ p ∈ whereBases (ftColNames fm), strContains c p = true)) ∧
    (remove_uninterpretable_features fm fl).2
      = fl.filter (fun f =>
          (ftColNames (remove_uninterpretable_features fm fl).1).contains f) := by
  refine ⟨?_, rfl⟩
  have h1 : c ∈ uninterpretableCols (ftColNames fm) ↔
      c ∈ ftColNames fm ∧
        (∃ p ∈ whereBases (ftColNames fm), strContains c p = true) ∧
          whereB c = false := by
    simp [uninterpretableCols, List.mem_filter, List.any_eq_true, Bool.and_eq_true,
      Bool.not_eq_true']
  have h2 : c ∈ ftColNames (remove_uninterpretable_features fm fl).1 ↔
      c ∈ ftColNames fm ∧ c ∉ uninterpretableCols (ftColNames fm) := by
    simp only [remove_uninterpretable_features, ftColNames, List.mem_map,
      List.mem_filter]
    constructor
    · rintro ⟨pr, ⟨hpr, hq⟩, rfl⟩
      refine ⟨⟨pr, hpr, rfl⟩, ?_⟩
      simpa using hq
    · rintro ⟨⟨pr, hpr, rfl⟩, hnot⟩
      refine ⟨pr, ⟨hpr, ?_⟩, rfl⟩
      simpa using hnot
  rw [h2, h1]
  constructor
  · rintro ⟨hn, hnot⟩
    exact ⟨hn, fun hcontra => hnot ⟨hn, hcontra.2, hcontra.1⟩⟩
  · rintro ⟨hn, hnot⟩
    exact ⟨hn, fun hcontra => hnot ⟨hcontra.2.2, hcontra.2.1⟩⟩

/-! ## What-if engine lemmas (C5, C6) -/

theorem idxOf?_spec {α : Type} (p : α → Bool) :
    ∀ (l : List α) (i : Nat), idxOf? p l = some i →
      i < l.length ∧ ∃ a, l.get? i = some a ∧ p a = true
  | [], i, h => by cases h
  | x :: xs, i, h => by
      rw [idxOf?] at h
      cases hp : p x with
      | true =>
          rw [if_pos hp] at h
          cases h
          exact ⟨by simp, x, rfl, hp⟩
      | false =>
          rw [if_neg (by simp [hp])] at h
          cases hidx : idxOf? p xs with
          | none => rw [hidx] at h; cases h
          | some j =>
              rw [hidx] at h
              simp only [Option.map_some', Option.some.injEq] at h
              subst h
              rcases idxOf?_spec p xs j hidx with ⟨hlt, a, hget, hpa⟩
              exact ⟨by simpa using Nat.succ_lt_succ hlt, a, by simpa using hget, hpa⟩

theorem idxOf?_isSome_of_mem {α : Type} [BEq α] [LawfulBEq α] (a : α) :
    ∀ (l : List α), a ∈ l → (idxOf? (fun x => x == a) l).isSome
  | [], h => absurd h (List.not_mem_nil a)
  | x :: xs, h => by
      rw [idxOf?]
      by_cases hx : (x == a) = true
      · rw [if_pos hx]
        rfl
      · have hx2 : x ≠ a := by simpa using hx
        rcases List.mem_cons.mp h with rfl | htail
        · exact absurd rfl hx2
        · rw [if_neg (by simpa using hx2)]
          cases hidx : idxOf? (fun x => x == a) xs with
          | none =>
              have := idxOf?_isSome_of_mem a xs htail
              rw [hidx] at this
              cases this
          | some j => rfl

theorem mem_highFeatures (fm : FMat) (id : Int) (c : String) :
    c ∈ highFeatures fm id ↔ c ∈ fm.numericNames ∧ ExceedsHigh fm id c := by
  rw [highFeatures, List.mem_filter]
  constructor
  · rintro ⟨hmem, hdec⟩
    exact ⟨hmem, @of_decide_eq_true _ (Classical.propDecidable _) hdec⟩
  · rintro ⟨hmem, hprop⟩
    exact ⟨hmem, @decide_eq_true _ (Classical.propDecidable _) hprop⟩

theorem mem_lowFeatures (fm : FMat) (id : Int) (c : String) :
    c ∈ lowFeatures fm id ↔ c ∈ fm.numericNames ∧ BelowLow fm id c := by
  rw [lowFeatures, List.mem_filter]
  constructor
  · rintro ⟨hmem, hdec⟩
    exact ⟨hmem, @of_decide_eq_true _ (Classical.propDecidable _) hdec⟩
  · rintro ⟨hmem, hprop⟩
    exact ⟨hmem, @decide_eq_true _ (Classical.propDecidable _) hprop⟩

theorem mem_whatIfKeys (fm : FMat) (id : Int) (eF : List ℝ → String → ℝ)
    (pF : List ℝ → ℝ) (c : String) :
    c ∈ whatIfKeys eF pF fm id ↔
      id ∈ fm.ids ∧ c ∈ fm.numericNames ∧
        (ExceedsHigh fm id c ∨ BelowLow fm id c) := by
  rw [whatIfKeys, whatIfOutput]
  by_cases hid : id ∈ fm.ids
  · rw [if_pos hid]
    simp only [List.map_append, List.map_map, List.mem_append, List.mem_map,
      Function.comp]
    constructor
    · rintro (⟨x, hx, rfl⟩ | ⟨x, hx, rfl⟩)
      · rcases (mem_highFeatures fm id x).mp hx with ⟨hnum, hex⟩
        exact ⟨hid, hnum, Or.inl hex⟩
      · rcases (mem_lowFeatures fm id x).mp hx with ⟨hnum, hbl⟩
        exact ⟨hid, hnum, Or.inr hbl⟩
    · rintro ⟨_, hnum, hout | hout⟩
      · exact Or.inl ⟨c, (mem_highFeatures fm id c).mpr ⟨hnum, hout⟩, rfl⟩
      · exact Or.inr ⟨c, (mem_lowFeatures fm id c).mpr ⟨hnum, hout⟩, rfl⟩
  · rw [if_neg hid]
    simp only [List.map_nil, List.not_mem_nil, false_iff]
    rintro ⟨h, _⟩
    exact hid h

theorem cell_mem_col (fm : FMat) (id : Int) (c : String) (v : ℚ) (b : Bool)
    (vs : List ℚ) (hcell : FMat.cell fm id c = some v)
    (hdata : fm.colData c = some (b, vs)) : v ∈ vs := by
  rw [FMat.cell, hdata] at hcell
  simp only [Option.bind_eq_bind, Option.some_bind] at hcell
  cases hidx : idxOf? (fun i => i == id) fm.ids with
  | none => rw [hidx] at hcell; cases hcell
  | some j =>
      rw [hidx] at hcell
      simp only [Option.some_bind] at hcell
      exact List.get?_mem hcell

theorem colMean_const (vs : List ℚ) (a : ℚ) (hne : vs ≠ [])
    (hconst : ∀ x ∈ vs, x = a) : colMean vs = a := by
  have h1 : vs.sum = (vs.length : ℚ) * a := by
    conv_lhs => rw [List.eq_replicate_of_mem hconst]
    rw [List.sum_replicate]
    simp [nsmul_eq_mul]
  have hlen : (vs.length : ℚ) ≠ 0 := by
    simp only [ne_eq, Nat.cast_eq_zero, List.length_eq_zero]
    exact hne
  rw [colMean, h1]
  field_simp

theorem colVarQ_const (vs : List ℚ) (a : ℚ) (hconst : ∀ x ∈ vs, x = a)
    (h2 : 2 ≤ vs.length) : colVarQ vs = some 0 := by
  rw [colVarQ, if_neg (by omega)]
  have hne : vs ≠ [] := by
    intro h
    rw [h] at h2
    simp at h2
  have hmean := colMean_const vs a hne hconst
  have hzero : vs.map (fun x => (x - colMean vs) ^ 2)
      = List.replicate vs.length 0 := by
    have : ∀ y ∈ vs.map (fun x => (x - colMean vs) ^ 2), y = 0 := by
      intro y hy
      rcases List.mem_map.mp hy with ⟨x, hx, rfl⟩
      rw [hconst x hx, hmean]
      ring
    have hrep := List.eq_replicate_of_mem this
    rwa [List.length_map] at hrep
  rw [hzero, List.sum_replicate]
  simp

theorem numericNames_subset (fm : FMat) (c : String)
    (h : c ∈ fm.numericNames) : c ∈ fm.colNames := by
  simp only [FMat.numericNames, FMat.colNames, List.mem_map, List.mem_filter] at h ⊢
  rcases h with ⟨p, ⟨hp, _⟩, rfl⟩
  exact ⟨p, hp, rfl⟩

theorem find?_of_get?_nodup :
    ∀ (cols : List (String × Bool × List ℚ)) (j : Nat) (p : String × Bool × List ℚ),
      (cols.map (fun x => x.1)).Nodup → cols.get? j = some p →
      cols.find? (fun q => q.1 == p.1) = some p
  | [], _, _, _, h => by cases h
  | x :: xs, 0, p, _, h => by
      injection h with h1
      subst h1
      simp [List.find?]
  | x :: xs, j + 1, p, hnd, h => by
      have hget : xs.get? j = some p := by simpa using h
      have hnd1 : (x.1 :: xs.map (fun q => q.1)).Nodup := by simpa using hnd
      rcases List.nodup_cons.mp hnd1 with ⟨hx, hnd2⟩
      have hpx : (x.1 == p.1) = false := by
        have hpmem : p.1 ∈ xs.map (fun q => q.1) :=
          List.mem_map.mpr ⟨p, List.get?_mem hget, rfl⟩
        simp only [beq_eq_false_iff_ne, ne_eq]
        intro heq
        exact hx (heq ▸ hpmem)
      simp [List.find?, hpx, find?_of_get?_nodup xs j p hnd2 hget]

/-- The perturbed copy `target_fv.set i x`: position `i` (the out-of-range
feature) holds exactly `x`, and every other column keeps the instance's
original value. -/
theorem perturbed_analysis (fm : FMat) (id : Int) (f : String) (i : Nat)
    (x : ℝ) (hnd : fm.colNames.Nodup)
    (hWF : ∀ p ∈ fm.cols, p.2.2.length = fm.ids.length)
    (hid : id ∈ fm.ids) (hpos : rowPosOf fm f = some i) :
    valAt fm (((targetRow fm id).map (fun q : ℚ => (q : ℝ))).set i x) f = some x ∧
    (∀ g, g ∈ fm.colNames → g ≠ f →
      ∃ w : ℚ, FMat.cell fm id g = some w ∧
        valAt fm (((targetRow fm id).map (fun q : ℚ => (q : ℝ))).set i x) g
          = some (w : ℝ)) := by
  have hlen1 : (targetRow fm id).length = fm.cols.length := by
    simp [targetRow]
  have hlencn : fm.colNames.length = fm.cols.length := by
    simp [FMat.colNames]
  rcases idxOf?_spec _ fm.colNames i hpos with ⟨hilt, a, hgeti, hai⟩
  have haf : a = f := by simpa using hai
  subst haf
  constructor
  · rw [valAt, hpos, Option.some_bind]
    rw [List.get?_set_eq_of_lt]
    simp only [List.length_map]
    omega
  · intro g hg hgf
    have hps := idxOf?_isSome_of_mem g fm.colNames hg
    cases hposg : rowPosOf fm g with
    | none =>
        rw [rowPosOf] at hposg
        rw [hposg] at hps
        cases hps
    | some j =>
        rcases idxOf?_spec _ fm.colNames j (by rwa [rowPosOf] at hposg) with
          ⟨hjlt, b, hgetj, hbj⟩
        have hbg : b = g := by simpa using hbj
        rw [hbg] at hgetj
        have hji : i ≠ j := by
          intro hj
          rw [← hj, hgeti] at hgetj
          injection hgetj with hfg
          exact hgf hfg.symm
        rw [valAt, hposg, Option.some_bind, List.get?_set_ne _ _ hji,
          List.get?_map]
        have hgetcols : ∃ p, fm.cols.get? j = some p ∧ p.1 = g := by
          rw [FMat.colNames, List.get?_map] at hgetj
          cases hc : fm.cols.get? j with
          | none => rw [hc] at hgetj; cases hgetj
          | some p =>
              rw [hc] at hgetj
              injection hgetj with hp1
              exact ⟨p, rfl, hp1⟩
        rcases hgetcols with ⟨p, hc, hp1⟩
        have hjid := idxOf?_isSome_of_mem id fm.ids hid
        cases hjidx : idxOf? (fun i => i == id) fm.ids with
        | none => rw [hjidx] at hjid; cases hjid
        | some jid =>
            rcases idxOf?_spec _ fm.ids jid hjidx with ⟨hjidlt, _, _, _⟩
            have hplen : p.2.2.length = fm.ids.length :=
              hWF p (List.get?_mem hc)
            cases hw : p.2.2.get? jid with
            | none =>
                have := List.get?_eq_none.mp hw
                omega
            | some w =>
                refine ⟨w, ?_, ?_⟩
                · rw [FMat.cell, FMat.colData]
                  have hfind := find?_of_get?_nodup fm.cols j p
                    (by rwa [FMat.colNames] at hnd) hc
                  rw [hp1] at hfind
                  rw [hfind]
                  simp only [Option.map_some', Option.some_bind, hjidx, hw]
                · rw [targetRow, List.get?_map, hc]
                  simp only [Option.map_some', Option.some.injEq, hjidx,
                    Option.some_bind, hw, Option.getD_some]

theorem fmW_varF : colVarQ [20, 9, 10, 11, 11, 11] = some 16 := by
  norm_num [colVarQ, colMean]

theorem fmW_stdF : colStd [20, 9, 10, 11, 11, 11] = some 4 := by
  rw [colStd, fmW_varF]
  show some (Real.sqrt ((16 : ℚ) : ℝ)) = some 4
  rw [show ((16 : ℚ) : ℝ) = 4 ^ 2 by norm_num, Real.sqrt_sq (by norm_num)]

theorem fmW_highF : statHigh fmW "F" = some (19.84 : ℝ) := by
  have hdataF : fmW.colData "F" = some (true, [20, 9, 10, 11, 11, 11]) := rfl
  have hmeanF : colMean [20, 9, 10, 11, 11, 11] = 12 := by norm_num [colMean]
  rw [statHigh, hdataF]
  simp only [Option.some_bind, if_true, fmW_stdF, Option.map_some',
    Option.some.injEq, hmeanF]
  norm_num

theorem fmW_exceedsF : ExceedsHigh fmW 1 "F" := by
  refine ⟨20, 19.84, rfl, fmW_highF, ?_⟩
  norm_num

/-- C5.  Counterfactual boundary clamp: every entry of the what-if output is
the result of re-scoring a perturbed copy of the instance that holds the one
out-of-range feature at exactly its interval boundary (`mean + 1.96·std`
above, `mean − 1.96·std` below) and every other feature at the instance's
original value; features are perturbed one at a time, never jointly. -/
theorem whatif_clamp (fm : FMat) (id : Int) (eF : List ℝ → String → ℝ)
    (pF : List ℝ → ℝ) (f : String) (sh pr : ℝ)
    (hnd : fm.colNames.Nodup)
    (hWF : ∀ p ∈ fm.cols, p.2.2.length = fm.ids.length)
    (hmem : (f, sh, pr) ∈ whatIfOutput eF pF fm id) :
    ∃ vals : List ℝ,
      sh = eF vals f ∧ pr = pF vals ∧
      ((ExceedsHigh fm id f ∧
          ∃ h, statHigh fm f = some h ∧ valAt fm vals f = some h) ∨
       (BelowLow fm id f ∧
          ∃ l, statLow fm f = some l ∧ valAt fm vals f = some l)) ∧
      (∀ g, g ∈ fm.colNames → g ≠ f →
        ∃ w : ℚ, FMat.cell fm id g = some w ∧ valAt fm vals g = some (w : ℝ)) := by
  by_cases hid : id ∈ fm.ids
  · rw [whatIfOutput, if_pos hid] at hmem
    rcases List.mem_append.mp hmem with hmem2 | hmem2
    · rcases List.mem_map.mp hmem2 with ⟨f0, hf0, heq⟩
      rw [Prod.mk.injEq, Prod.mk.injEq] at heq
      obtain ⟨rfl, hsh, hpr⟩ := heq
      rcases (mem_highFeatures fm id f0).mp hf0 with ⟨hnum, hex⟩
      rcases hex with ⟨v, h, hcell, hhigh, hgt⟩
      have hgcol : f0 ∈ fm.colNames := numericNames_subset fm f0 hnum
      have hps := idxOf?_isSome_of_mem f0 fm.colNames hgcol
      cases hpos : rowPosOf fm f0 with
      | none =>
          rw [rowPosOf] at hpos
          rw [hpos] at hps
          cases hps
      | some i =>
          have hset : perturbedValsHigh fm id f0
              = ((targetRow fm id).map (fun q : ℚ => (q : ℝ))).set i h := by
            rw [perturbedValsHigh, hpos, hhigh]
          rcases perturbed_analysis fm id f0 i h hnd hWF hid hpos with ⟨hvf, hvg⟩
          refine ⟨perturbedValsHigh fm id f0, hsh.symm, hpr.symm,
            Or.inl ⟨⟨v, h, hcell, hhigh, hgt⟩, h, hhigh, ?_⟩, ?_⟩
          · rw [hset]
            exact hvf
          · intro g hg hgf
            rw [hset]
            exact hvg g hg hgf
    · rcases List.mem_map.mp hmem2 with ⟨f0, hf0, heq⟩
      rw [Prod.mk.injEq, Prod.mk.injEq] at heq
      obtain ⟨rfl, hsh, hpr⟩ := heq
      rcases (mem_lowFeatures fm id f0).mp hf0 with ⟨hnum, hbl⟩
      rcases hbl with ⟨v, l, hcell, hlow, hlt⟩
      have hgcol : f0 ∈ fm.colNames := numericNames_subset fm f0 hnum
      have hps := idxOf?_isSome_of_mem f0 fm.colNames hgcol
      cases hpos : rowPosOf fm f0 with
      | none =>
          rw [rowPosOf] at hpos
          rw [hpos] at hps
          cases hps
      | some i =>
          have hset : perturbedValsLow fm id f0
              = ((targetRow fm id).map (fun q : ℚ => (q : ℝ))).set i l := by
            rw [perturbedValsLow, hpos, hlow]
          rcases perturbed_analysis fm id f0 i l hnd hWF hid hpos with ⟨hvf, hvg⟩
          refine ⟨perturbedValsLow fm id f0, hsh.symm, hpr.symm,
            Or.inr ⟨⟨v, l, hcell, hlow, hlt⟩, l, hlow, ?_⟩, ?_⟩
          · rw [hset]
            exact hvf
          · intro g hg hgf
            rw [hset]
            exact hvg g hg hgf
  · rw [whatIfOutput, if_neg hid] at hmem
    cases hmem

/-- Witness for the clamp on the concrete matrix: the out-of-range entry for
`F` is re-scored on a row holding `F` at its boundary and `G`, `H` at their
original values. -/
theorem whatif_clamp_w :
    ∃ vals : List ℝ,
      (0 : ℝ) = zeroEF vals "F" ∧ (0 : ℝ) = zeroPF vals ∧
      ((ExceedsHigh fmW 1 "F" ∧
          ∃ h, statHigh fmW "F" = some h ∧ valAt fmW vals "F" = some h) ∨
       (BelowLow fmW 1 "F" ∧
          ∃ l, statLow fmW "F" = some l ∧ valAt fmW vals "F" = some l)) ∧
      (∀ g, g ∈ fmW.colNames → g ≠ "F" →
        ∃ w : ℚ, FMat.cell fmW 1 g = some w ∧ valAt fmW vals g = some (w : ℝ)) := by
  have hFhigh : "F" ∈ highFeatures fmW 1 :=
    (mem_highFeatures fmW 1 "F").mpr ⟨by decide, fmW_exceedsF⟩
  have hmem : ("F", (0 : ℝ), (0 : ℝ)) ∈ whatIfOutput zeroEF zeroPF fmW 1 := by
    rw [whatIfOutput, if_pos (by decide)]
    exact List.mem_append.mpr (Or.inl (List.mem_map.mpr ⟨"F", hFhigh, rfl⟩))
  exact whatif_clamp fmW 1 zeroEF zeroPF "F" 0 0 (by decide) (by decide) hmem

/-- C6.  In-range exclusion of the counterfactual engine: the output mapping
keys are exactly the numeric features of a known instance whose value is
strictly above the high boundary or strictly below the low boundary; hence a
feature whose value lies within `[mean − 1.96·std, mean + 1.96·std]` never
appears, a non-numeric feature never appears, and a constant column (zero or
undefined standard deviation) never appears. -/
theorem whatif_inrange_excluded (fm : FMat) (id : Int)
    (eF : List ℝ → String → ℝ) (pF : List ℝ → ℝ) (c : String) :
    (c ∈ whatIfKeys eF pF fm id ↔
       id ∈ fm.ids ∧ c ∈ fm.numericNames ∧
         (ExceedsHigh fm id c ∨ BelowLow fm id c)) ∧
    (∀ (v : ℚ) (h l : ℝ), FMat.cell fm id c = some v → statHigh fm c = some h →
       statLow fm c = some l → l ≤ (v : ℝ) → (v : ℝ) ≤ h →
       c ∉ whatIfKeys eF pF fm id) ∧
    ((∀ p ∈ fm.cols, p.1 = c → p.2.1 = false) →
       c ∉ whatIfKeys eF pF fm id) ∧
    (∀ (vs : List ℚ) (a : ℚ), fm.colData c = some (true, vs) →
       (∀ x ∈ vs, x = a) → c ∉ whatIfKeys eF pF fm id) := by
  refine ⟨mem_whatIfKeys fm id eF pF c, ?_, ?_, ?_⟩
  · intro v h l hcell hhigh hlow hge hle hmem
    rcases ((mem_whatIfKeys fm id eF pF c).mp hmem).2.2 with hout | hout
    · rcases hout with ⟨v2, h2, hcell2, hhigh2, hgt⟩
      rw [hcell] at hcell2
      rw [hhigh] at hhigh2
      cases hcell2
      cases hhigh2
      linarith
    · rcases hout with ⟨v2, l2, hcell2, hlow2, hlt⟩
      rw [hcell] at hcell2
      rw [hlow] at hlow2
      cases hcell2
      cases hlow2
      linarith
  · intro hnonnum hmem
    rcases (mem_whatIfKeys fm id eF pF c).mp hmem with ⟨_, hnum, _⟩
    simp only [FMat.numericNames, List.mem_map, List.mem_filter] at hnum
    rcases hnum with ⟨p, ⟨hp, hnump⟩, rfl⟩
    rw [hnonnum p hp rfl] at hnump
    cases hnump
  · intro vs a hdata hconst hmem
    rcases (mem_whatIfKeys fm id eF pF c).mp hmem with ⟨hid, _, hout⟩
    by_cases h2 : 2 ≤ vs.length
    · have hvar := colVarQ_const vs a hconst h2
      have hne : vs ≠ [] := by
        intro h
        rw [h] at h2
        simp at h2
      have hmean := colMean_const vs a hne hconst
      have hstd : colStd vs = some 0 := by
        rw [colStd, hvar]
        simp
      have hhigh : statHigh fm c = some ((a : ℝ)) := by
        rw [statHigh, hdata]
        simp [hstd, hmean]
      have hlow : statLow fm c = some ((a : ℝ)) := by
        rw [statLow, hdata]
        simp [hstd, hmean]
      rcases hout with ⟨v2, h2x, hcell2, hh, hgt⟩ | ⟨v2, l2, hcell2, hl, hlt⟩
      · have hv2 : v2 = a := hconst v2 (cell_mem_col fm id c v2 true vs hcell2 hdata)
        rw [hhigh] at hh
        cases hh
        rw [hv2] at hgt
        exact lt_irrefl _ hgt
      · have hv2 : v2 = a := hconst v2 (cell_mem_col fm id c v2 true vs hcell2 hdata)
        rw [hlow] at hl
        cases hl
        rw [hv2] at hlt
        exact lt_irrefl _ hlt
    · have hvar : colVarQ vs = none := by
        rw [colVarQ, if_pos (by omega)]
      have hhigh : statHigh fm c = none := by
        rw [statHigh, hdata]
        simp [colStd, hvar]
      have hlow : statLow fm c = none := by
        rw [statLow, hdata]
        simp [colStd, hvar]
      rcases hout with ⟨v2, h2x, _, hh, _⟩ | ⟨v2, l2, _, hl, _⟩
      · rw [hhigh] at hh
        cases hh
      · rw [hlow] at hl
        cases hl

/-- Witness for in-range exclusion on the concrete matrix: the out-of-range
`F` (value 20 against boundary 19.84) is among the keys, while the constant
numeric `G` and the non-numeric `H` are excluded. -/
theorem whatif_inrange_excluded_w :
    "F" ∈ whatIfKeys zeroEF zeroPF fmW 1 ∧
    "G" ∉ whatIfKeys zeroEF zeroPF fmW 1 ∧
    "H" ∉ whatIfKeys zeroEF zeroPF fmW 1 := by
  refine ⟨?_, ?_, ?_⟩
  · exact (whatif_inrange_excluded fmW 1 zeroEF zeroPF "F").1.mpr
      ⟨by decide, by decide, Or.inl fmW_exceedsF⟩
  · refine (whatif_inrange_excluded fmW 1 zeroEF zeroPF "G").2.2.2
      [5, 5, 5, 5, 5, 5] 5 rfl ?_
    intro x hx
    have hx5 : x = 5 := by simpa using hx
    exact hx5
  · exact (whatif_inrange_excluded fmW 1 zeroEF zeroPF "H").2.2.1 (by decide)

/-- Witness for the amended pruning characterization, at the concrete
two-column matrix: the surviving column is the WHERE-feature itself. -/
theorem remove_uninterpretable_amended_w :
    ("MEAN(V) WHERE I" ∈ ftColNames (remove_uninterpretable_features ftabUn flUn).1 ↔
       "MEAN(V) WHERE I" ∈ ftColNames ftabUn ∧
         ¬(whereB "MEAN(V) WHERE I" = false ∧
            ∃ p ∈ whereBases (ftColNames ftabUn),
              strContains "MEAN(V) WHERE I" p = true)) ∧
    (remove_uninterpretable_features ftabUn flUn).2
      = flUn.filter (fun f =>
          (ftColNames (remove_uninterpretable_features ftabUn flUn).1).contains f) :=
  remove_uninterpretable_amended ftabUn flUn "MEAN(V) WHERE I"

end VBridge
